import Mathlib

/-!
Verification of the cdb64 constant key/value database (reader, writer,
default hash) against its natural-language specification.

The embedding models byte strings as `List Nat` (each element a byte value),
files as flat byte lists, and the Go `uint64` arithmetic as `Nat` arithmetic
with explicit `% 2 ^ 64` truncation at the points where the Go code converts
to or serializes 64-bit machine words.  Go slices (which may be `nil`) are
modelled as `Option (List Nat)`.  Loops whose termination is not structural
(the slot-probing loops in the writer's `finalize` and the reader's `Get`)
are given explicit fuel equal to the table size, which mirrors the Go code's
cyclic termination guard; exhausting the fuel yields `none`, corresponding to
divergence of the Go loop (and is proved unreachable where needed).
-/

namespace Cdb64

/-- `headerSize = 256 * 8 * 2` from the source. -/
def headerSize : Nat := 256 * 8 * 2

/-- Little-endian serialization of the low `n` bytes of a natural number,
mirroring `binary.LittleEndian.PutUint64` for `n = 8`. -/
def putBytes : Nat → Nat → List Nat
  | 0, _ => []
  | n + 1, x => x % 256 :: putBytes n (x / 256)

/-- The 8 little-endian bytes of a 64-bit word. -/
def putUint64 (x : Nat) : List Nat := putBytes 8 x

/-- Little-endian decoding of a byte list, mirroring
`binary.LittleEndian.Uint64` when applied to 8 bytes. -/
def leUint64 (bs : List Nat) : Nat := bs.foldr (fun b a => b + 256 * a) 0

/-- `writeTuple` from the source: emit two `uint64` values as 16 bytes,
each little-endian. -/
def writeTuple (first second : Nat) : List Nat := putUint64 first ++ putUint64 second

/-- `ReadAt` on the modelled file: read exactly `n` bytes at `off`; a short
read is an error (`none`), as `io.ReaderAt` guarantees full reads or error. -/
def readAt (file : List Nat) (off n : Nat) : Option (List Nat) :=
  let bs := (file.drop off).take n
  if bs.length = n then some bs else none

/-- `readTuple` from the source: read 16 bytes at `off` and decode two
little-endian `uint64` values. -/
def readTuple (file : List Nat) (off : Nat) : Option (Nat × Nat) :=
  match readAt file off 16 with
  | none => none
  | some t => some (leUint64 (t.take 8), leUint64 (t.drop 8))

/-- One step of `cdbHash.Write` from the source:
`v = ((v << 5) + v) ^ uint64(b)`, in wrapping `uint64` arithmetic. -/
def hashStep (v b : Nat) : Nat := (((v <<< 5) % 2 ^ 64 + v) % 2 ^ 64) ^^^ b

/-- The default cdb hash of a byte string: `newCDBHash` starts at `5381`
(`start` in the source) and `Write` folds `hashStep` over the data. -/
def cdbHash (data : List Nat) : Nat := data.foldl hashStep 5381

/-- The hash update rule exactly as the specification words it:
`state ← ((state << 5) + state) XOR b`, all arithmetic modulo `2 ^ 64`. -/
def specHashStep (s b : Nat) : Nat := ((s <<< 5) + s) % 2 ^ 64 ^^^ b

/-- The specification's hash: left fold of `specHashStep` from `5381`. -/
def specHashFold (data : List Nat) : Nat := data.foldl specHashStep 5381

/-- The byte content of a Go byte slice; a `nil` slice has no bytes
(`for _, b := range data` iterates zero times on `nil`). -/
def goBytes : Option (List Nat) → List Nat
  | none => []
  | some l => l

/-- `len` of a Go byte slice; `len(nil) = 0`. -/
def goLen : Option (List Nat) → Nat
  | none => 0
  | some l => l.length

/-- The default hasher applied to a Go byte slice, as a `HashFunc` value:
reset to `start`, `Write` the slice's bytes, take `Sum64`. -/
def cdbHashSlice (key : Option (List Nat)) : Nat := cdbHash (goBytes key)

/-- A subtable descriptor (`table` in the source): absolute byte offset of the
subtable's first slot, and its number of 16-byte slots. -/
structure Table where
  offset : Nat
  length : Nat
deriving DecidableEq

/-- An in-memory hash-table entry accumulated by the writer (`entry` in the
source): the key's 64-bit hash and the absolute offset of its record. -/
structure Entry where
  hash : Nat
  offset : Nat
deriving DecidableEq

/-- The zero value of `entry`, which fills unoccupied slots. -/
def emptySlot : Entry := ⟨0, 0⟩

/-- An open reader (`CDB` in the source): the in-memory header, the underlying
random-access byte source, and the configured hasher. -/
structure CDB where
  header : List Table
  file : List Nat
  hasher : Option (List Nat) → Nat

/-- `getValueAt` from the source: read the record's `(key_len, value_len)`
prefix at `offset`, compare lengths, then read `key ++ value` and compare the
key bytes; `ok none` means "not this record", `error` an I/O failure. -/
def getValueAt (file : List Nat) (offset : Nat) (expectedKey : List Nat) :
    Except Unit (Option (List Nat)) :=
  match readTuple file offset with
  | none => .error ()
  | some (keyLength, valueLength) =>
    if keyLength ≠ expectedKey.length then .ok none
    else
      match readAt file (offset + 16) (keyLength + valueLength) with
      | none => .error ()
      | some buf =>
        if buf.take keyLength ≠ expectedKey then .ok none
        else .ok (some (buf.drop keyLength))

/-- The probe loop of `CDB.Get`: starting from a slot, repeatedly read the
16-byte slot at `tOff + 16·slot`; an all-zero slot hash breaks with "not
found", a matching hash attempts a key compare, and the slot index advances
cyclically, breaking after a full cycle.  `fuel` bounds the iteration count;
`CDB.Get` passes `tLen`, which the full-cycle guard makes sufficient. -/
def probeLoop (file key : List Nat) (h tOff tLen startingSlot : Nat) :
    Nat → Nat → Except Unit (Option (List Nat))
  | _, 0 => .ok none
  | slot, fuel + 1 =>
    match readTuple file (tOff + 16 * slot) with
    | none => .error ()
    | some (slotHash, offset) =>
      if slotHash = 0 then .ok none
      else if slotHash = h then
        match getValueAt file offset key with
        | .error e => .error e
        | .ok (some value) => .ok (some value)
        | .ok none =>
          let slot2 := (slot + 1) % tLen
          if slot2 = startingSlot then .ok none
          else probeLoop file key h tOff tLen startingSlot slot2 fuel
      else
        let slot2 := (slot + 1) % tLen
        if slot2 = startingSlot then .ok none
        else probeLoop file key h tOff tLen startingSlot slot2 fuel

/-- `CDB.Get` from the source: hash the key, select the subtable by the low
byte of the hash, return "not found" for an empty subtable, otherwise probe
from `(hash >> 8) mod length`. -/
def CDB.Get (cdb : CDB) (key : Option (List Nat)) : Except Unit (Option (List Nat)) :=
  let h := cdb.hasher key
  let t := cdb.header.getD (h % 256) ⟨0, 0⟩
  if t.length = 0 then .ok none
  else
    let startingSlot := (h >>> 8) % t.length
    probeLoop cdb.file (goBytes key) h t.offset t.length startingSlot startingSlot t.length

/-- `readHeader` from the source: read exactly `headerSize` bytes at offset 0
and decode the 256 subtable descriptors. -/
def readHeader (file : List Nat) : Option (List Table) :=
  match readAt file 0 headerSize with
  | none => none
  | some buf =>
    some ((List.range 256).map fun i =>
      ⟨leUint64 ((buf.drop (16 * i)).take 8), leUint64 ((buf.drop (16 * i + 8)).take 8)⟩)

/-- `New` from the source, specialized to an explicit hasher: build a reader
over a byte source by decoding its header. -/
def CDB.New (file : List Nat) (hasher : Option (List Nat) → Nat) : Option CDB :=
  (readHeader file).map fun h => ⟨h, file, hasher⟩

/-- The writer's mutable state (`Writer` in the source): the configured hash
constructor, the 256 per-subtable entry lists, the bytes written after the
4096-byte header placeholder, and `bufferedOffset`. -/
structure Writer where
  hasher : Option (List Nat) → Nat
  entries : Nat → List Entry
  data : List Nat
  bufferedOffset : Nat

/-- `NewWriter` from the source: a fresh writer whose sink holds the
4096-byte zero header placeholder and whose `bufferedOffset` is
`headerSize`. -/
def NewWriter (hasher : Option (List Nat) → Nat) : Writer :=
  ⟨hasher, fun _ => [], [], headerSize⟩

/-- The body of `Writer.Put` after the nil check: record
`(hash, uint64(bufferedOffset))` in `entries[hash & 0xff]`, emit the record
bytes, and advance `bufferedOffset` by `16 + len(key) + len(value)`. -/
def Writer.putRecord (w : Writer) (key value : List Nat) : Writer :=
  let h := w.hasher (some key)
  let t := h % 256
  { w with
    entries := fun i => if i = t then w.entries i ++ [⟨h, w.bufferedOffset % 2 ^ 64⟩]
               else w.entries i
    data := w.data ++ (writeTuple key.length value.length ++ (key ++ value))
    bufferedOffset := w.bufferedOffset + (16 + key.length + value.length) }

/-- `Writer.Put` from the source: reject a `nil` key or value, otherwise add
the record. -/
def Writer.Put (w : Writer) (key value : Option (List Nat)) : Except Unit Writer :=
  match key, value with
  | some k, some v => .ok (w.putRecord k v)
  | _, _ => .error ()

/-- A sequence of successful `Put` calls (all keys and values non-nil). -/
def Writer.putList (w : Writer) (ps : List (List Nat × List Nat)) : Writer :=
  ps.foldl (fun w p => w.putRecord p.1 p.2) w

/-- The inner placement probe of `finalize`: starting from a slot, advance
cyclically until a slot whose stored hash is zero is found.  The Go loop has
no explicit bound; fuel equal to the table size is provided by
`placeEntries`, and exhaustion (`none`) corresponds to divergence. -/
def findSlot (sorted : List Entry) (slot : Nat) : Nat → Option Nat
  | 0 => none
  | fuel + 1 =>
    if (sorted.getD slot emptySlot).hash = 0 then some slot
    else findSlot sorted ((slot + 1) % sorted.length) fuel

/-- The placement loop of `finalize` for one subtable: each entry, in
insertion order, goes into the first empty slot at or cyclically after
`(hash >> 8) mod tableSize`. -/
def placeEntries (sorted : List Entry) : List Entry → Option (List Entry)
  | [] => some sorted
  | e :: rest =>
    match findSlot sorted ((e.hash >>> 8) % sorted.length) sorted.length with
    | none => none
    | some s => placeEntries (sorted.set s e) rest

/-- The per-subtable loop of `finalize` over the given subtable indices:
record each subtable's descriptor `(uint64(bufferedOffset), 2·N)` — the
offset is stored through Go's `uint64` conversion, hence the `% 2 ^ 64` —
place its entries, and emit every slot in array order as a 16-byte tuple. -/
def finalizeTables (entries : Nat → List Entry) (off : Nat) :
    List Nat → Option (List Table × List Nat)
  | [] => some ([], [])
  | i :: rest =>
    let tableEntries := entries i
    let tableSize := tableEntries.length * 2
    match placeEntries (List.replicate tableSize emptySlot) tableEntries with
    | none => none
    | some sorted =>
      match finalizeTables entries (off + 16 * tableSize) rest with
      | none => none
      | some (ts, bs) =>
        some (⟨off % 2 ^ 64, tableSize⟩ :: ts,
          (sorted.map fun e => writeTuple e.hash e.offset).flatten ++ bs)

/-- The 4096 header bytes: 256 descriptors, each `(offset, length)`
little-endian. -/
def encodeHeader (ts : List Table) : List Nat :=
  (ts.map fun t => writeTuple t.offset t.length).flatten

/-- `Writer.finalize` from the source: write the 256 subtables after the
record region, then rewrite the header; the result is the header array and
the final file content `header ++ records ++ subtables`. -/
def Writer.finalize (w : Writer) : Option (List Table × List Nat) :=
  match finalizeTables w.entries w.bufferedOffset (List.range 256) with
  | none => none
  | some (ts, slotBytes) => some (ts, encodeHeader ts ++ (w.data ++ slotBytes))

/-- `Writer.Freeze`'s happy path: finalize, then hand the same byte source
and the in-memory header to a reader. -/
def Writer.freeze (w : Writer) : Option CDB :=
  (w.finalize).map fun r => ⟨r.1, r.2, w.hasher⟩

/-- A writer together with its `sync.Once` finalize guard and the current
content of the underlying file. -/
structure WriterHandle where
  w : Writer
  finalized : Bool
  file : List Nat

/-- `Writer.Close` from the source: run `finalize` through the once-guard
(rewriting the file), then close the sink. -/
def WriterHandle.close (s : WriterHandle) : WriterHandle :=
  if s.finalized then s
  else
    { s with
      finalized := true
      file := match s.w.finalize with
              | some r => r.2
              | none => s.file }

/-- `Writer.Freeze` from the source: run `finalize` through the once-guard
and return a reader over the same source.  If the guard has already fired,
`finalize` is not re-run and the returned header is the zero value of
`[256]table`, exactly as in the Go code. -/
def WriterHandle.freezeHandle (s : WriterHandle) : WriterHandle × Option CDB :=
  if s.finalized then (s, some ⟨List.replicate 256 ⟨0, 0⟩, s.file, s.w.hasher⟩)
  else
    match s.w.finalize with
    | some r => (⟨s.w, true, r.2⟩, some ⟨r.1, r.2, s.w.hasher⟩)
    | none => (⟨s.w, true, s.file⟩, none)

/-! ### Model-level descriptions of the writer's state

These definitions do not come from the source; they are closed-form
descriptions of the state produced by the source functions above, and are
related to them by the lemmas that follow. -/

/-- The on-disk size of one record: 16 prefix bytes plus key plus value. -/
def recSize (p : List Nat × List Nat) : Nat := 16 + p.1.length + p.2.length

/-- The bytes `Put` emits for one record. -/
def recBytes (p : List Nat × List Nat) : List Nat :=
  writeTuple p.1.length p.2.length ++ (p.1 ++ p.2)

/-- Each put pair together with the absolute offset of its record, starting
from `off`. -/
def annotated (off : Nat) : List (List Nat × List Nat) → List (Nat × (List Nat × List Nat))
  | [] => []
  | p :: rest => (off, p) :: annotated (off + recSize p) rest

/-- The entry list accumulated in `entries[i]` by a sequence of puts starting
at buffered offset `off`. -/
def entriesModel (H : Option (List Nat) → Nat) (off : Nat)
    (ps : List (List Nat × List Nat)) (i : Nat) : List Entry :=
  match ps with
  | [] => []
  | p :: rest =>
    (if i = H (some p.1) % 256 then [⟨H (some p.1), off % 2 ^ 64⟩] else []) ++
      entriesModel H (off + recSize p) rest i

/-- Total slot count of the subtables at the given indices. -/
def sizesSum (entries : Nat → List Entry) : List Nat → Nat
  | [] => 0
  | i :: rest => (entries i).length * 2 + sizesSum entries rest

/-! ### Little-endian codec lemmas -/

theorem length_putBytes (n x : Nat) : (putBytes n x).length = n := by
  induction n generalizing x with
  | zero => rfl
  | succ n ih => simp [putBytes, ih]

theorem length_putUint64 (x : Nat) : (putUint64 x).length = 8 :=
  length_putBytes 8 x

theorem length_writeTuple (a b : Nat) : (writeTuple a b).length = 16 := by
  simp [writeTuple, length_putUint64]

theorem mod_mul_decomp (x n : Nat) :
    x % (256 * 256 ^ n) = x % 256 + 256 * (x / 256 % 256 ^ n) := by
  have hK : 0 < 256 ^ n := Nat.pos_pow_of_pos n (by norm_num)
  conv_lhs => rw [← Nat.div_add_mod x 256]
  rw [Nat.add_mod, Nat.mul_mod_mul_left]
  have hr : x % 256 < 256 * 256 ^ n := lt_of_lt_of_le (Nat.mod_lt x (by norm_num))
    (Nat.le_mul_of_pos_right 256 hK)
  have h1 : x / 256 % 256 ^ n < 256 ^ n := Nat.mod_lt _ hK
  have h2 : x % 256 < 256 := Nat.mod_lt x (by norm_num)
  rw [Nat.mod_eq_of_lt hr, Nat.mod_eq_of_lt (by nlinarith)]
  omega

theorem leUint64_putBytes (n x : Nat) : leUint64 (putBytes n x) = x % 256 ^ n := by
  induction n generalizing x with
  | zero => simp [putBytes, leUint64]; omega
  | succ n ih =>
    have h256 : 256 ^ (n + 1) = 256 * 256 ^ n := by ring
    simp only [putBytes, leUint64, List.foldr_cons, h256]
    have hx := ih (x / 256)
    simp only [leUint64] at hx
    rw [hx, mod_mul_decomp]

theorem leUint64_putUint64 (x : Nat) : leUint64 (putUint64 x) = x % 2 ^ 64 := by
  have : (256 : Nat) ^ 8 = 2 ^ 64 := by norm_num
  rw [putUint64, leUint64_putBytes, this]

/-! ### Reading at an offset described by a drop decomposition -/

theorem drop_append_left (a b : List Nat) (n : Nat) (h : n ≤ a.length) :
    (a ++ b).drop n = a.drop n ++ b := by
  rw [List.drop_append_eq_append_drop, Nat.sub_eq_zero_of_le h, List.drop_zero]

theorem drop_append_right (a b : List Nat) (n : Nat) (h : a.length ≤ n) :
    (a ++ b).drop n = b.drop (n - a.length) := by
  rw [List.drop_append_eq_append_drop, List.drop_eq_nil_of_le h, List.nil_append]

theorem take_append_exact (a b : List Nat) (n : Nat) (h : a.length = n) :
    (a ++ b).take n = a := by
  rw [← h, List.take_left]

theorem drop_append_exact (a b : List Nat) (n : Nat) (h : a.length = n) :
    (a ++ b).drop n = b := by
  rw [← h, List.drop_left]

theorem readAt_of_drop (file pre rest : List Nat) (off n : Nat)
    (hdrop : file.drop off = pre ++ rest) (hlen : pre.length = n) :
    readAt file off n = some pre := by
  unfold readAt
  rw [hdrop, take_append_exact _ _ _ hlen]
  simp [hlen]

theorem readTuple_of_drop (file rest : List Nat) (off a b : Nat)
    (hdrop : file.drop off = writeTuple a b ++ rest) :
    readTuple file off = some (a % 2 ^ 64, b % 2 ^ 64) := by
  unfold readTuple
  rw [readAt_of_drop file (writeTuple a b) rest off 16 hdrop (length_writeTuple a b)]
  show some (leUint64 ((putUint64 a ++ putUint64 b).take 8),
    leUint64 ((putUint64 a ++ putUint64 b).drop 8)) = _
  rw [take_append_exact _ _ _ (length_putUint64 a),
    drop_append_exact _ _ _ (length_putUint64 a),
    leUint64_putUint64, leUint64_putUint64]

theorem drop_drop_add (l : List Nat) (m n : Nat) : (l.drop m).drop n = l.drop (m + n) :=
  List.drop_drop n m l

/-! ### Flattened 16-byte chunks (slot regions, header region) -/

theorem flatten_chunk_length {α : Type} (f : α → List Nat) (hf : ∀ a, (f a).length = 16) :
    ∀ l : List α, ((l.map f).flatten).length = 16 * l.length := by
  intro l
  induction l with
  | nil => simp
  | cons x xs ih =>
    simp only [List.map_cons, List.flatten_cons, List.length_append, ih, hf, List.length_cons]
    ring

theorem flatten_chunk_drop {α : Type} (f : α → List Nat) (d : α)
    (hf : ∀ a, (f a).length = 16) :
    ∀ (l : List α) (s : Nat), s < l.length →
      ((l.map f).flatten).drop (16 * s) =
        f (l.getD s d) ++ ((l.drop (s + 1)).map f).flatten := by
  intro l
  induction l with
  | nil => intro s hs; simp at hs
  | cons x xs ih =>
    intro s hs
    cases s with
    | zero => simp
    | succ s =>
      have h16 : 16 * (s + 1) = 16 + 16 * s := by ring
      simp only [List.map_cons, List.flatten_cons, h16]
      rw [← drop_drop_add, drop_append_exact _ _ _ (hf x)]
      simp only [List.length_cons, Nat.succ_lt_succ_iff] at hs
      simpa using ih s hs

/-! ### Record region: reading a record at its annotated offset -/

theorem length_recBytes (p : List Nat × List Nat) : (recBytes p).length = recSize p := by
  simp [recBytes, recSize, length_writeTuple]; ring

theorem annotated_bounds :
    ∀ (ps : List (List Nat × List Nat)) (off o : Nat) (kv : List Nat × List Nat),
      (o, kv) ∈ annotated off ps →
      off ≤ o ∧ o + recSize kv ≤ off + (ps.map recSize).sum := by
  intro ps
  induction ps with
  | nil => intro off o kv h; simp [annotated] at h
  | cons p rest ih =>
    intro off o kv h
    simp only [annotated, List.mem_cons] at h
    rcases h with h | h
    · obtain ⟨h1, h2⟩ := Prod.mk.injEq .. ▸ h
      subst h1; subst h2
      simp only [List.map_cons, List.sum_cons]
      omega
    · have := ih (off + recSize p) o kv h
      simp only [List.map_cons, List.sum_cons]
      omega

theorem annotated_mem_pair :
    ∀ (ps : List (List Nat × List Nat)) (off o : Nat) (kv : List Nat × List Nat),
      (o, kv) ∈ annotated off ps → kv ∈ ps := by
  intro ps
  induction ps with
  | nil => intro off o kv h; simp [annotated] at h
  | cons p rest ih =>
    intro off o kv h
    simp only [annotated, List.mem_cons] at h
    rcases h with h | h
    · obtain ⟨h1, h2⟩ := Prod.mk.injEq .. ▸ h
      subst h2; exact List.mem_cons_self _ _
    · exact List.mem_cons_of_mem _ (ih _ _ _ h)

theorem annotated_of_mem :
    ∀ (ps : List (List Nat × List Nat)) (off : Nat) (kv : List Nat × List Nat),
      kv ∈ ps → ∃ o, (o, kv) ∈ annotated off ps := by
  intro ps
  induction ps with
  | nil => intro off kv h; simp at h
  | cons p rest ih =>
    intro off kv h
    rcases List.mem_cons.mp h with h | h
    · exact ⟨off, by simp [annotated, h]⟩
    · obtain ⟨o, ho⟩ := ih (off + recSize p) kv h
      exact ⟨o, by simp [annotated, ho]⟩

theorem annotated_drop :
    ∀ (ps : List (List Nat × List Nat)) (off o : Nat) (kv : List Nat × List Nat),
      (o, kv) ∈ annotated off ps →
      ∃ rest, ((ps.map recBytes).flatten).drop (o - off) = recBytes kv ++ rest := by
  intro ps
  induction ps with
  | nil => intro off o kv h; simp [annotated] at h
  | cons p rest ih =>
    intro off o kv h
    simp only [annotated, List.mem_cons] at h
    rcases h with h | h
    · obtain ⟨h1, h2⟩ := Prod.mk.injEq .. ▸ h
      subst h1; subst h2
      exact ⟨(rest.map recBytes).flatten, by simp⟩
    · obtain ⟨hle, _⟩ := annotated_bounds rest (off + recSize p) o kv h
      obtain ⟨r, hr⟩ := ih (off + recSize p) o kv h
      refine ⟨r, ?_⟩
      simp only [List.map_cons, List.flatten_cons]
      rw [drop_append_right _ _ _ (by rw [length_recBytes]; omega), length_recBytes]
      rw [show o - off - recSize p = o - (off + recSize p) by omega]
      exact hr

theorem getValueAt_of_drop (file rest : List Nat) (o : Nat) (kv : List Nat × List Nat)
    (key : List Nat) (hdrop : file.drop o = recBytes kv ++ rest)
    (hkl : kv.1.length < 2 ^ 64) (hvl : kv.2.length < 2 ^ 64) :
    getValueAt file o key = .ok (if kv.1 = key then some kv.2 else none) := by
  have hdrop2 : file.drop o =
      writeTuple kv.1.length kv.2.length ++ ((kv.1 ++ kv.2) ++ rest) := by
    rw [hdrop, recBytes, List.append_assoc]
  have hrt : readTuple file o = some (kv.1.length, kv.2.length) := by
    rw [readTuple_of_drop file ((kv.1 ++ kv.2) ++ rest) o _ _ hdrop2,
      Nat.mod_eq_of_lt hkl, Nat.mod_eq_of_lt hvl]
  have hdrop16 : file.drop (o + 16) = (kv.1 ++ kv.2) ++ rest := by
    rw [← drop_drop_add, hdrop2, drop_append_exact _ _ _ (length_writeTuple _ _)]
  have hra : readAt file (o + 16) (kv.1.length + kv.2.length) = some (kv.1 ++ kv.2) :=
    readAt_of_drop file (kv.1 ++ kv.2) rest (o + 16) _ hdrop16 (by simp)
  by_cases hlen : kv.1.length = key.length
  · have htake : (kv.1 ++ kv.2).take kv.1.length = kv.1 := take_append_exact _ _ _ rfl
    have hdropk : (kv.1 ++ kv.2).drop kv.1.length = kv.2 := drop_append_exact _ _ _ rfl
    by_cases hk : kv.1 = key
    · subst hk
      simp [getValueAt, hrt, hra, htake, hdropk]
    · have hra2 : readAt file (o + 16) (key.length + kv.2.length) = some (kv.1 ++ kv.2) :=
        hlen ▸ hra
      have htake2 : (kv.1 ++ kv.2).take key.length = kv.1 := hlen ▸ htake
      simp [getValueAt, hrt, hlen, hra2, htake2, hk]
  · have hk : kv.1 ≠ key := fun h => hlen (by rw [h])
    simp [getValueAt, hrt, hlen, hk]

/-! ### Characterizing the writer's state after a sequence of puts -/

theorem putRecord_hasher (w : Writer) (k v : List Nat) :
    (w.putRecord k v).hasher = w.hasher := rfl

theorem putRecord_data (w : Writer) (k v : List Nat) :
    (w.putRecord k v).data = w.data ++ recBytes (k, v) := rfl

theorem putRecord_bufferedOffset (w : Writer) (k v : List Nat) :
    (w.putRecord k v).bufferedOffset = w.bufferedOffset + recSize (k, v) := rfl

theorem putRecord_entries (w : Writer) (k v : List Nat) (i : Nat) :
    (w.putRecord k v).entries i =
      if i = w.hasher (some k) % 256 then
        w.entries i ++ [⟨w.hasher (some k), w.bufferedOffset % 2 ^ 64⟩]
      else w.entries i := rfl

theorem putList_cons (w : Writer) (p : List Nat × List Nat)
    (ps : List (List Nat × List Nat)) :
    w.putList (p :: ps) = (w.putRecord p.1 p.2).putList ps := rfl

theorem putList_hasher : ∀ (ps : List (List Nat × List Nat)) (w : Writer),
    (w.putList ps).hasher = w.hasher := by
  intro ps
  induction ps with
  | nil => intro w; rfl
  | cons p rest ih => intro w; rw [putList_cons, ih, putRecord_hasher]

theorem putList_data : ∀ (ps : List (List Nat × List Nat)) (w : Writer),
    (w.putList ps).data = w.data ++ (ps.map recBytes).flatten := by
  intro ps
  induction ps with
  | nil => intro w; simp [Writer.putList]
  | cons p rest ih =>
    intro w
    rw [putList_cons, ih, putRecord_data]
    simp

theorem putList_bufferedOffset : ∀ (ps : List (List Nat × List Nat)) (w : Writer),
    (w.putList ps).bufferedOffset = w.bufferedOffset + (ps.map recSize).sum := by
  intro ps
  induction ps with
  | nil => intro w; simp [Writer.putList]
  | cons p rest ih =>
    intro w
    rw [putList_cons, ih, putRecord_bufferedOffset]
    simp only [List.map_cons, List.sum_cons]
    have hrs : recSize (p.1, p.2) = recSize p := rfl
    omega

theorem putList_entries : ∀ (ps : List (List Nat × List Nat)) (w : Writer) (i : Nat),
    (w.putList ps).entries i =
      w.entries i ++ entriesModel w.hasher w.bufferedOffset ps i := by
  intro ps
  induction ps with
  | nil => intro w i; simp [Writer.putList, entriesModel]
  | cons p rest ih =>
    intro w i
    rw [putList_cons, ih, putRecord_entries, putRecord_hasher, putRecord_bufferedOffset]
    show _ = w.entries i ++
      ((if i = w.hasher (some p.1) % 256 then [⟨w.hasher (some p.1), w.bufferedOffset % 2 ^ 64⟩]
        else []) ++ entriesModel w.hasher (w.bufferedOffset + recSize p) rest i)
    by_cases hi : i = w.hasher (some p.1) % 256
    · rw [if_pos hi, if_pos hi, List.append_assoc]
    · rw [if_neg hi, if_neg hi]
      simp

/-! ### Facts about `entriesModel` -/

theorem entriesModel_mem (H : Option (List Nat) → Nat) :
    ∀ (ps : List (List Nat × List Nat)) (off : Nat) (e : Entry) (i : Nat),
      e ∈ entriesModel H off ps i →
      ∃ o kv, (o, kv) ∈ annotated off ps ∧ e = ⟨H (some kv.1), o % 2 ^ 64⟩ ∧
        H (some kv.1) % 256 = i := by
  intro ps
  induction ps with
  | nil => intro off e i h; simp [entriesModel] at h
  | cons p rest ih =>
    intro off e i h
    simp only [entriesModel, List.mem_append] at h
    rcases h with h | h
    · by_cases hi : i = H (some p.1) % 256
      · rw [if_pos hi] at h
        simp only [List.mem_singleton] at h
        exact ⟨off, p, by simp [annotated], h, hi.symm⟩
      · rw [if_neg hi] at h; simp at h
    · obtain ⟨o, kv, hmem, he, hi⟩ := ih (off + recSize p) e i h
      exact ⟨o, kv, by simp [annotated, hmem], he, hi⟩

theorem entriesModel_of_annotated (H : Option (List Nat) → Nat) :
    ∀ (ps : List (List Nat × List Nat)) (off o : Nat) (kv : List Nat × List Nat),
      (o, kv) ∈ annotated off ps →
      (⟨H (some kv.1), o % 2 ^ 64⟩ : Entry) ∈
        entriesModel H off ps (H (some kv.1) % 256) := by
  intro ps
  induction ps with
  | nil => intro off o kv h; simp [annotated] at h
  | cons p rest ih =>
    intro off o kv h
    simp only [annotated, List.mem_cons] at h
    simp only [entriesModel, List.mem_append]
    rcases h with h | h
    · obtain ⟨h1, h2⟩ := Prod.mk.injEq .. ▸ h
      subst h1; subst h2
      left; rw [if_pos rfl]; simp
    · right; exact ih _ _ _ h

theorem entriesModel_length (H : Option (List Nat) → Nat) :
    ∀ (ps : List (List Nat × List Nat)) (off i : Nat),
      (entriesModel H off ps i).length =
        (ps.filter fun p => H (some p.1) % 256 == i).length := by
  intro ps
  induction ps with
  | nil => intro off i; simp [entriesModel]
  | cons p rest ih =>
    intro off i
    simp only [entriesModel, List.length_append, ih, List.filter_cons]
    by_cases hi : i = H (some p.1) % 256
    · rw [if_pos hi, if_pos (show (H (some p.1) % 256 == i) = true by simp [hi])]
      simp
      omega
    · rw [if_neg hi,
        if_neg (show ¬(H (some p.1) % 256 == i) = true by simp; exact fun h => hi h.symm)]
      simp

theorem pairwise_key_eq :
    ∀ (ps : List (List Nat × List Nat)), ps.Pairwise (fun a b => a.1 ≠ b.1) →
      ∀ a ∈ ps, ∀ b ∈ ps, a.1 = b.1 → a = b := by
  intro ps
  induction ps with
  | nil => intro _ a ha; simp at ha
  | cons p rest ih =>
    intro hp a ha b hb hab
    rw [List.pairwise_cons] at hp
    rcases List.mem_cons.mp ha with ha | ha <;> rcases List.mem_cons.mp hb with hb | hb
    · rw [ha, hb]
    · exact absurd (ha ▸ hab) (hp.1 b hb)
    · exact absurd (hb ▸ hab.symm) (hp.1 a ha)
    · exact ih hp.2 a ha b hb hab

/-! ### Slot-array helpers -/

/-- A slot is occupied when its stored hash is nonzero; this is exactly the
emptiness test used by both `finalize`'s placement and `Get`'s probe. -/
def occB (e : Entry) : Bool := e.hash != 0

theorem getD_set_self (l : List Entry) (i : Nat) (a : Entry) (h : i < l.length) :
    (l.set i a).getD i emptySlot = a := by
  rw [List.getD_eq_getElem?_getD, List.getElem?_set_self]
  · simp
  · simpa using h

theorem getD_set_other (l : List Entry) (i j : Nat) (a : Entry) (h : j ≠ i) :
    (l.set i a).getD j emptySlot = l.getD j emptySlot := by
  rw [List.getD_eq_getElem?_getD, List.getElem?_set_ne, ← List.getD_eq_getElem?_getD]
  exact fun he => h he.symm

theorem getD_mem (l : List Entry) (i : Nat) (h : i < l.length) :
    l.getD i emptySlot ∈ l := by
  rw [List.getD_eq_getElem?_getD, List.getElem?_eq_getElem h]
  exact List.getElem_mem h

theorem countP_set_occupied :
    ∀ (l : List Entry) (s : Nat) (e : Entry), s < l.length →
      (l.getD s emptySlot).hash = 0 → e.hash ≠ 0 →
      (l.set s e).countP occB = l.countP occB + 1 := by
  intro l
  induction l with
  | nil => intro s e hs; simp at hs
  | cons x xs ih =>
    intro s e hs h0 he
    cases s with
    | zero =>
      have hx : occB x = false := by
        simp only [List.getD_cons_zero] at h0
        simp [occB, h0]
      have he2 : occB e = true := by simp [occB, he]
      simp [List.countP_cons, hx, he2]
    | succ s =>
      simp only [List.length_cons, Nat.succ_lt_succ_iff] at hs
      simp only [List.getD_cons_succ] at h0
      simp only [List.set_cons_succ, List.countP_cons, ih s e hs h0 he]
      omega

theorem countP_set_le :
    ∀ (l : List Entry) (s : Nat) (e : Entry), s < l.length →
      (l.getD s emptySlot).hash = 0 →
      (l.set s e).countP occB ≤ l.countP occB + 1 := by
  intro l
  induction l with
  | nil => intro s e hs; simp at hs
  | cons x xs ih =>
    intro s e hs h0
    cases s with
    | zero =>
      have hx : occB x = false := by
        simp only [List.getD_cons_zero] at h0
        simp [occB, h0]
      simp only [List.set_cons_zero, List.countP_cons, hx]
      cases occB e <;> simp
    | succ s =>
      simp only [List.length_cons, Nat.succ_lt_succ_iff] at hs
      simp only [List.getD_cons_succ] at h0
      simp only [List.set_cons_succ, List.countP_cons, List.getD_cons_succ]
      have := ih s e hs h0
      omega

theorem exists_empty_of_countP_lt (l : List Entry) (h : l.countP occB < l.length) :
    ∃ p, p < l.length ∧ (l.getD p emptySlot).hash = 0 := by
  by_contra h2
  push_neg at h2
  have hall : ∀ a ∈ l, occB a := by
    intro a ha
    obtain ⟨i, hi, hg⟩ := List.mem_iff_getElem.mp ha
    have : l.getD i emptySlot = a := by
      rw [List.getD_eq_getElem?_getD, List.getElem?_eq_getElem hi]; simpa using hg
    have hne := h2 i hi
    rw [this] at hne
    simp [occB, hne]
  exact absurd (List.countP_eq_length.mpr hall) (by omega)

theorem countP_replicate_empty (n : Nat) :
    (List.replicate n emptySlot).countP occB = 0 := by
  rw [List.countP_eq_zero]
  intro a ha
  rw [List.eq_of_mem_replicate ha]
  simp [occB, emptySlot]

theorem getD_replicate_empty (n p : Nat) :
    (List.replicate n emptySlot).getD p emptySlot = emptySlot := by
  rw [List.getD_eq_getElem?_getD]
  rcases Nat.lt_or_ge p n with h | h
  · rw [List.getElem?_replicate, if_pos h]; simp
  · rw [List.getElem?_eq_none (by simpa using h)]; simp

/-! ### Modular index arithmetic -/

theorem mod_idx_inj (size start m d : Nat) (hm : m < size) (hd : d < size)
    (h : (start + m) % size = (start + d) % size) : m = d := by
  have hmod : m % size = d % size :=
    Nat.ModEq.add_left_cancel' start h
  rwa [Nat.mod_eq_of_lt hm, Nat.mod_eq_of_lt hd] at hmod

theorem mod_add_shift (size start m : Nat) :
    ((start + 1) % size + m) % size = (start + (1 + m)) % size := by
  rw [Nat.mod_add_mod, Nat.add_assoc]

/-! ### The placement probe (`findSlot`) -/

theorem findSlot_spec :
    ∀ (fuel : Nat) (sorted : List Entry) (start : Nat), start < sorted.length →
      (∃ m, m < fuel ∧ (sorted.getD ((start + m) % sorted.length) emptySlot).hash = 0) →
      ∃ d, d < fuel ∧ findSlot sorted start fuel = some ((start + d) % sorted.length) ∧
        (sorted.getD ((start + d) % sorted.length) emptySlot).hash = 0 ∧
        ∀ m, m < d → (sorted.getD ((start + m) % sorted.length) emptySlot).hash ≠ 0 := by
  intro fuel
  induction fuel with
  | zero =>
    intro sorted start hs hex
    obtain ⟨m, hm, _⟩ := hex
    omega
  | succ fuel ih =>
    intro sorted start hstart hex
    have hpos : 0 < sorted.length := by omega
    by_cases h0 : (sorted.getD start emptySlot).hash = 0
    · refine ⟨0, Nat.succ_pos _, ?_, ?_, fun m hm => absurd hm (by omega)⟩
      · show (if (sorted.getD start emptySlot).hash = 0 then some start else _) = _
        rw [if_pos h0, Nat.add_zero, Nat.mod_eq_of_lt hstart]
      · rwa [Nat.add_zero, Nat.mod_eq_of_lt hstart]
    · obtain ⟨m, hm, hempty⟩ := hex
      have hm0 : m ≠ 0 := by
        intro hz
        subst hz
        rw [Nat.add_zero, Nat.mod_eq_of_lt hstart] at hempty
        exact h0 hempty
      have hstart2 : (start + 1) % sorted.length < sorted.length := Nat.mod_lt _ hpos
      have hex2 : ∃ m2, m2 < fuel ∧
          (sorted.getD (((start + 1) % sorted.length + m2) % sorted.length)
            emptySlot).hash = 0 := by
        refine ⟨m - 1, by omega, ?_⟩
        rw [mod_add_shift]
        have : start + (1 + (m - 1)) = start + m := by omega
        rwa [this]
      obtain ⟨d2, hd2, hfind, hemp, hpath⟩ := ih sorted ((start + 1) % sorted.length) hstart2 hex2
      have hidx : ((start + 1) % sorted.length + d2) % sorted.length =
          (start + (d2 + 1)) % sorted.length := by
        rw [mod_add_shift]
        congr 1
        omega
      refine ⟨d2 + 1, by omega, ?_, ?_, ?_⟩
      · show (if (sorted.getD start emptySlot).hash = 0 then some start else
          findSlot sorted ((start + 1) % sorted.length) fuel) = _
        rw [if_neg h0, hfind, hidx]
      · rwa [hidx] at hemp
      · intro m2 hm2
        cases m2 with
        | zero => rwa [Nat.add_zero, Nat.mod_eq_of_lt hstart]
        | succ m3 =>
          have := hpath m3 (by omega)
          rwa [mod_add_shift, show start + (1 + m3) = start + (m3 + 1) by omega] at this

/-! ### Placement of a subtable's entries (`placeEntries`) -/

theorem placeEntries_spec :
    ∀ (es sorted : List Entry),
      (∀ e ∈ es, e.hash ≠ 0) →
      sorted.countP occB + es.length ≤ sorted.length →
      ∃ sorted2, placeEntries sorted es = some sorted2 ∧
        sorted2.length = sorted.length ∧
        (∀ p, (sorted.getD p emptySlot).hash ≠ 0 →
          sorted2.getD p emptySlot = sorted.getD p emptySlot) ∧
        (∀ p, p < sorted.length →
          sorted2.getD p emptySlot = sorted.getD p emptySlot ∨
            sorted2.getD p emptySlot ∈ es) ∧
        (∀ e ∈ es, ∃ d, d < sorted.length ∧
          sorted2.getD (((e.hash >>> 8) % sorted.length + d) % sorted.length) emptySlot = e ∧
          ∀ m, m < d →
            (sorted2.getD (((e.hash >>> 8) % sorted.length + m) % sorted.length)
              emptySlot).hash ≠ 0) := by
  intro es
  induction es with
  | nil =>
    intro sorted _ _
    exact ⟨sorted, rfl, rfl, fun p _ => rfl, fun p _ => Or.inl rfl, by simp⟩
  | cons e rest ih =>
    intro sorted hnz hcount
    simp only [List.length_cons] at hcount
    have hpos : 0 < sorted.length := by omega
    have henz : e.hash ≠ 0 := hnz e (List.mem_cons_self e rest)
    have hlt : sorted.countP occB < sorted.length := by omega
    obtain ⟨p0, hp0, hp0e⟩ := exists_empty_of_countP_lt sorted hlt
    have hstart : (e.hash >>> 8) % sorted.length < sorted.length := Nat.mod_lt _ hpos
    have hex : ∃ m, m < sorted.length ∧
        (sorted.getD (((e.hash >>> 8) % sorted.length + m) % sorted.length)
          emptySlot).hash = 0 := by
      refine ⟨(p0 + sorted.length - (e.hash >>> 8) % sorted.length) % sorted.length,
        Nat.mod_lt _ hpos, ?_⟩
      rw [Nat.add_mod_mod,
        show (e.hash >>> 8) % sorted.length +
          (p0 + sorted.length - (e.hash >>> 8) % sorted.length) = p0 + sorted.length
          by omega,
        Nat.add_mod_right, Nat.mod_eq_of_lt hp0]
      exact hp0e
    obtain ⟨d0, hd0, hfind, hempty0, hpath0⟩ :=
      findSlot_spec sorted.length sorted ((e.hash >>> 8) % sorted.length) hstart hex
    have hslt : ((e.hash >>> 8) % sorted.length + d0) % sorted.length < sorted.length :=
      Nat.mod_lt _ hpos
    have hlen1 : (sorted.set (((e.hash >>> 8) % sorted.length + d0) % sorted.length)
        e).length = sorted.length := List.length_set sorted ..
    have hget1s : (sorted.set (((e.hash >>> 8) % sorted.length + d0) % sorted.length)
        e).getD (((e.hash >>> 8) % sorted.length + d0) % sorted.length) emptySlot = e :=
      getD_set_self _ _ _ hslt
    have hother : ∀ p, p ≠ ((e.hash >>> 8) % sorted.length + d0) % sorted.length →
        (sorted.set (((e.hash >>> 8) % sorted.length + d0) % sorted.length)
          e).getD p emptySlot = sorted.getD p emptySlot :=
      fun p hp => getD_set_other _ _ _ _ hp
    have hcount1 : (sorted.set (((e.hash >>> 8) % sorted.length + d0) % sorted.length)
        e).countP occB = sorted.countP occB + 1 :=
      countP_set_occupied sorted _ e hslt hempty0 henz
    have hnzrest : ∀ x ∈ rest, x.hash ≠ 0 := fun x hx => hnz x (List.mem_cons_of_mem _ hx)
    obtain ⟨sorted2, hplace2, hlen2, hmono2, hchar2, hpos2⟩ :=
      ih (sorted.set (((e.hash >>> 8) % sorted.length + d0) % sorted.length) e)
        hnzrest (by rw [hlen1, hcount1]; omega)
    rw [hlen1] at hlen2 hchar2 hpos2
    refine ⟨sorted2, ?_, hlen2, ?_, ?_, ?_⟩
    · simp only [placeEntries]
      rw [hfind]
      exact hplace2
    · intro p hp
      have hps : p ≠ ((e.hash >>> 8) % sorted.length + d0) % sorted.length := by
        intro heq
        rw [heq] at hp
        exact hp hempty0
      rw [hmono2 p (by rw [hother p hps]; exact hp), hother p hps]
    · intro p hplen
      rcases hchar2 p hplen with hsame | hmem
      · by_cases hps : p = ((e.hash >>> 8) % sorted.length + d0) % sorted.length
        · subst hps
          right
          rw [hsame, hget1s]
          exact List.mem_cons_self _ _
        · left
          rw [hsame, hother p hps]
      · right
        exact List.mem_cons_of_mem _ hmem
    · intro x hx
      rcases List.mem_cons.mp hx with hxe | hxr
      · subst hxe
        refine ⟨d0, by omega, ?_, ?_⟩
        · rw [hmono2 _ (by rw [hget1s]; exact henz), hget1s]
        · intro m hm
          have hq : ((x.hash >>> 8) % sorted.length + m) % sorted.length ≠
              ((x.hash >>> 8) % sorted.length + d0) % sorted.length := by
            intro heq
            exact absurd (mod_idx_inj sorted.length _ m d0
              (lt_trans hm hd0) hd0 heq) (by omega)
          have hnz0 := hpath0 m hm
          rw [hmono2 _ (by rw [hother _ hq]; exact hnz0), hother _ hq]
          exact hnz0
      · obtain ⟨d, hd, hgd, hpathd⟩ := hpos2 x hxr
        exact ⟨d, hd, hgd, hpathd⟩

/-- `placeEntries` always succeeds on a half-empty table, whatever the entry
hashes are: placing over an empty-looking slot never decreases the number of
empty-looking slots below the remaining entry count. -/
theorem placeEntries_isSome :
    ∀ (es sorted : List Entry),
      sorted.countP occB + es.length ≤ sorted.length →
      ∃ sorted2, placeEntries sorted es = some sorted2 ∧
        sorted2.length = sorted.length := by
  intro es
  induction es with
  | nil => intro sorted _; exact ⟨sorted, rfl, rfl⟩
  | cons e rest ih =>
    intro sorted hcount
    simp only [List.length_cons] at hcount
    have hpos : 0 < sorted.length := by omega
    have hlt : sorted.countP occB < sorted.length := by omega
    obtain ⟨p0, hp0, hp0e⟩ := exists_empty_of_countP_lt sorted hlt
    have hstart : (e.hash >>> 8) % sorted.length < sorted.length := Nat.mod_lt _ hpos
    have hex : ∃ m, m < sorted.length ∧
        (sorted.getD (((e.hash >>> 8) % sorted.length + m) % sorted.length)
          emptySlot).hash = 0 := by
      refine ⟨(p0 + sorted.length - (e.hash >>> 8) % sorted.length) % sorted.length,
        Nat.mod_lt _ hpos, ?_⟩
      rw [Nat.add_mod_mod,
        show (e.hash >>> 8) % sorted.length +
          (p0 + sorted.length - (e.hash >>> 8) % sorted.length) = p0 + sorted.length
          by omega,
        Nat.add_mod_right, Nat.mod_eq_of_lt hp0]
      exact hp0e
    obtain ⟨d0, hd0, hfind, hempty0, hpath0⟩ :=
      findSlot_spec sorted.length sorted ((e.hash >>> 8) % sorted.length) hstart hex
    have hslt : ((e.hash >>> 8) % sorted.length + d0) % sorted.length < sorted.length :=
      Nat.mod_lt _ hpos
    have hlen1 : (sorted.set (((e.hash >>> 8) % sorted.length + d0) % sorted.length)
        e).length = sorted.length := List.length_set sorted ..
    have hcount1 := countP_set_le sorted
      (((e.hash >>> 8) % sorted.length + d0) % sorted.length) e hslt hempty0
    obtain ⟨sorted2, hplace2, hlen2⟩ :=
      ih (sorted.set (((e.hash >>> 8) % sorted.length + d0) % sorted.length) e)
        (by rw [hlen1]; omega)
    refine ⟨sorted2, ?_, by rw [hlen2, hlen1]⟩
    simp only [placeEntries]
    rw [hfind]
    exact hplace2

/-! ### The subtable-emitting loop of `finalize` -/

theorem length_slotBytes (l : List Entry) :
    ((l.map fun e => writeTuple e.hash e.offset).flatten).length = 16 * l.length :=
  flatten_chunk_length _ (fun e => length_writeTuple _ _) l

theorem sizesSum_cons (entries : Nat → List Entry) (i : Nat) (l : List Nat) :
    sizesSum entries (i :: l) = (entries i).length * 2 + sizesSum entries l := rfl

theorem sizesSum_append (f : Nat → List Entry) :
    ∀ a b : List Nat, sizesSum f (a ++ b) = sizesSum f a + sizesSum f b := by
  intro a b
  induction a with
  | nil => simp [sizesSum]
  | cons x xs ih =>
    rw [List.cons_append, sizesSum_cons, sizesSum_cons, ih]
    omega

theorem sizesSum_range_succ (f : Nat → List Entry) (n : Nat) :
    sizesSum f (List.range (n + 1)) = sizesSum f (List.range n) + (f n).length * 2 := by
  rw [List.range_succ, sizesSum_append]
  show _ + ((f n).length * 2 + 0) = _
  omega

theorem sizesSum_eq_zero (f : Nat → List Entry) :
    ∀ idxs : List Nat, (∀ j ∈ idxs, f j = []) → sizesSum f idxs = 0 := by
  intro idxs
  induction idxs with
  | nil => intro _; rfl
  | cons j l ih =>
    intro hall
    rw [sizesSum_cons, hall j (List.mem_cons_self j l),
      ih (fun x hx => hall x (List.mem_cons_of_mem _ hx))]
    rfl

theorem entriesModel_cons_length (H : Option (List Nat) → Nat)
    (p : List Nat × List Nat) (rest : List (List Nat × List Nat)) (off i : Nat) :
    (entriesModel H off (p :: rest) i).length =
      (if i = H (some p.1) % 256 then 1 else 0) +
        (entriesModel H (off + recSize p) rest i).length := by
  show ((if i = H (some p.1) % 256 then [(⟨H (some p.1), off % 2 ^ 64⟩ : Entry)]
      else []) ++ entriesModel H (off + recSize p) rest i).length = _
  by_cases hi : i = H (some p.1) % 256 <;> simp [hi] <;> omega

theorem sizesSum_cons_entry (H : Option (List Nat) → Nat)
    (p : List Nat × List Nat) (rest : List (List Nat × List Nat)) :
    ∀ (idxs : List Nat) (off : Nat),
      sizesSum (fun i => entriesModel H off (p :: rest) i) idxs =
        2 * idxs.count (H (some p.1) % 256) +
          sizesSum (fun i => entriesModel H (off + recSize p) rest i) idxs := by
  intro idxs off
  induction idxs with
  | nil => rfl
  | cons j idxs2 ih =>
    rw [sizesSum_cons, sizesSum_cons, ih, List.count_cons, entriesModel_cons_length]
    by_cases hj : j = H (some p.1) % 256
    · simp only [if_pos hj, hj, beq_self_eq_true, if_true]
      omega
    · have hne : ¬ ((j == H (some p.1) % 256) = true) := by
        simp only [beq_iff_eq]
        exact hj
      simp only [if_neg hj, if_neg hne]
      omega

theorem sizesSum_entries_le (H : Option (List Nat) → Nat) :
    ∀ (ps : List (List Nat × List Nat)) (off : Nat) (idxs : List Nat), idxs.Nodup →
      sizesSum (fun i => entriesModel H off ps i) idxs ≤ 2 * ps.length := by
  intro ps
  induction ps with
  | nil =>
    intro off idxs _
    have h0 : sizesSum (fun i => entriesModel H off [] i) idxs = 0 :=
      sizesSum_eq_zero _ idxs (fun _ _ => rfl)
    omega
  | cons p rest ih =>
    intro off idxs hnd
    rw [sizesSum_cons_entry]
    have hc : idxs.count (H (some p.1) % 256) ≤ 1 :=
      List.nodup_iff_count_le_one.mp hnd _
    have hr := ih (off + recSize p) idxs hnd
    simp only [List.length_cons]
    omega

theorem finalizeTables_spec (entries : Nat → List Entry) :
    ∀ (idxs : List Nat) (off : Nat),
      ∃ ts bs, finalizeTables entries off idxs = some (ts, bs) ∧
        ts.length = idxs.length ∧
        bs.length = 16 * sizesSum entries idxs ∧
        ∀ j, j < idxs.length →
          ∃ sorted,
            placeEntries (List.replicate ((entries (idxs.getD j 0)).length * 2) emptySlot)
              (entries (idxs.getD j 0)) = some sorted ∧
            sorted.length = (entries (idxs.getD j 0)).length * 2 ∧
            ts.getD j ⟨0, 0⟩ =
              ⟨(off + 16 * sizesSum entries (idxs.take j)) % 2 ^ 64,
               (entries (idxs.getD j 0)).length * 2⟩ ∧
            bs.drop (16 * sizesSum entries (idxs.take j)) =
              (sorted.map fun e => writeTuple e.hash e.offset).flatten ++
                bs.drop (16 * (sizesSum entries (idxs.take j) +
                  (entries (idxs.getD j 0)).length * 2)) := by
  intro idxs
  induction idxs with
  | nil =>
    intro off
    exact ⟨[], [], rfl, rfl, by simp [sizesSum], fun j hj => absurd hj (by simp)⟩
  | cons i rest ih =>
    intro off
    obtain ⟨sorted1, hplace1, hlen1⟩ := placeEntries_isSome (entries i)
      (List.replicate ((entries i).length * 2) emptySlot)
      (by rw [countP_replicate_empty, List.length_replicate]; omega)
    obtain ⟨ts2, bs2, hrec, hlents, hlenbs, hfacts⟩ := ih (off + 16 * ((entries i).length * 2))
    rw [List.length_replicate] at hlen1
    have htb1len : ((sorted1.map fun e => writeTuple e.hash e.offset).flatten).length =
        16 * ((entries i).length * 2) := by rw [length_slotBytes, hlen1]
    refine ⟨⟨off % 2 ^ 64, (entries i).length * 2⟩ :: ts2,
      (sorted1.map fun e => writeTuple e.hash e.offset).flatten ++ bs2, ?_, ?_, ?_, ?_⟩
    · simp only [finalizeTables]
      rw [hplace1, hrec]
    · simp [hlents]
    · rw [List.length_append, htb1len, hlenbs, sizesSum_cons]
      ring
    · intro j hj
      cases j with
      | zero =>
        refine ⟨sorted1, hplace1, hlen1, ?_, ?_⟩
        · simp [sizesSum]
        · show ((sorted1.map fun e => writeTuple e.hash e.offset).flatten ++ bs2).drop
            (16 * sizesSum entries []) = _
          simp only [sizesSum, Nat.mul_zero, List.drop_zero, Nat.zero_add,
            List.getD_cons_zero]
          rw [drop_append_exact _ _ _ htb1len]
      | succ j =>
        simp only [List.length_cons, Nat.succ_lt_succ_iff] at hj
        obtain ⟨sorted, hplace, hlen, hts, hbs⟩ := hfacts j hj
        have hgd : (i :: rest).getD (j + 1) 0 = rest.getD j 0 := List.getD_cons_succ ..
        refine ⟨sorted, by rw [hgd]; exact hplace, by rw [hgd]; exact hlen, ?_, ?_⟩
        · show ts2.getD j ⟨0, 0⟩ = _
          rw [hts, hgd, List.take_succ_cons, sizesSum_cons]
          congr 2
          ring
        · rw [hgd, List.take_succ_cons, sizesSum_cons]
          rw [drop_append_right _ _ _
            (by rw [htb1len]; omega), htb1len]
          rw [show 16 * ((entries i).length * 2 + sizesSum entries (rest.take j)) -
            16 * ((entries i).length * 2) = 16 * sizesSum entries (rest.take j) by omega]
          rw [drop_append_right _ _ _ (by rw [htb1len]; omega), htb1len]
          rw [show 16 * ((entries i).length * 2 + sizesSum entries (rest.take j) +
            (entries (rest.getD j 0)).length * 2) - 16 * ((entries i).length * 2) =
            16 * (sizesSum entries (rest.take j) + (entries (rest.getD j 0)).length * 2)
            by omega]
          exact hbs

/-! ### The reader's probe loop -/

theorem readTuple_slot (file : List Nat) (sorted : List Entry) (tOff s : Nat)
    (rest : List Nat)
    (hfile : file.drop tOff = (sorted.map fun e => writeTuple e.hash e.offset).flatten ++ rest)
    (hs : s < sorted.length) :
    readTuple file (tOff + 16 * s) =
      some ((sorted.getD s emptySlot).hash % 2 ^ 64,
        (sorted.getD s emptySlot).offset % 2 ^ 64) := by
  have hdrop : file.drop (tOff + 16 * s) =
      writeTuple (sorted.getD s emptySlot).hash (sorted.getD s emptySlot).offset ++
        (((sorted.drop (s + 1)).map fun e => writeTuple e.hash e.offset).flatten ++ rest) := by
    rw [← drop_drop_add, hfile,
      drop_append_left _ _ _ (by rw [length_slotBytes]; omega),
      flatten_chunk_drop _ emptySlot (fun e => length_writeTuple _ _) sorted s hs,
      List.append_assoc]
  exact readTuple_of_drop _ _ _ _ _ hdrop

theorem probeLoop_finds (file key v : List Nat) (h tOff size start d : Nat)
    (svh svo : Nat → Nat)
    (hh : h ≠ 0) (hstart : start < size) (hd : d < size)
    (hread : ∀ m, m ≤ d →
      readTuple file (tOff + 16 * ((start + m) % size)) = some (svh m, svo m))
    (hpath : ∀ m, m < d → svh m ≠ 0 ∧ (svh m = h →
      getValueAt file (svo m) key = .ok none ∨
        getValueAt file (svo m) key = .ok (some v)))
    (hhith : svh d = h) (hhitv : getValueAt file (svo d) key = .ok (some v)) :
    ∀ m, m ≤ d → probeLoop file key h tOff size start ((start + m) % size) (size - m) =
      .ok (some v) := by
  suffices hgen : ∀ k m, m ≤ d → d - m = k →
      probeLoop file key h tOff size start ((start + m) % size) (size - m) =
        .ok (some v) by
    intro m hm
    exact hgen (d - m) m hm rfl
  intro k
  induction k with
  | zero =>
    intro m hm hk
    have hmd : m = d := by omega
    subst hmd
    have hfuel : size - m = (size - m - 1) + 1 := by omega
    rw [hfuel]
    simp only [probeLoop]
    rw [hread m le_rfl]
    show (if svh m = 0 then Except.ok none else _) = _
    rw [if_neg (hhith ▸ hh), if_pos hhith, hhitv]
  | succ k ihk =>
    intro m hm hk
    have hmd : m < d := by omega
    have hfuel : size - m = (size - m - 1) + 1 := by omega
    rw [hfuel]
    simp only [probeLoop]
    rw [hread m (le_of_lt hmd)]
    obtain ⟨hnz, hcase⟩ := hpath m hmd
    show (if svh m = 0 then Except.ok none else _) = _
    rw [if_neg hnz]
    have hidx : ((start + m) % size + 1) % size = (start + (m + 1)) % size := by
      rw [Nat.mod_add_mod, Nat.add_assoc]
    have hne : (start + (m + 1)) % size ≠ start := by
      intro heq
      have hz : (start + (m + 1)) % size = (start + 0) % size := by
        rw [heq, Nat.add_zero, Nat.mod_eq_of_lt hstart]
      exact absurd (mod_idx_inj size start (m + 1) 0 (by omega) (by omega) hz) (by omega)
    have hrec : probeLoop file key h tOff size start ((start + (m + 1)) % size)
        (size - (m + 1)) = .ok (some v) := ihk (m + 1) (by omega) (by omega)
    by_cases hsm : svh m = h
    · rw [if_pos hsm]
      rcases hcase hsm with hnone | hsome
      · rw [hnone]
        show (if ((start + m) % size + 1) % size = start then Except.ok none else
          probeLoop file key h tOff size start (((start + m) % size + 1) % size)
            (size - m - 1)) = _
        rw [hidx, if_neg hne, show size - m - 1 = size - (m + 1) by omega]
        exact hrec
      · rw [hsome]
    · rw [if_neg hsm]
      show (if ((start + m) % size + 1) % size = start then Except.ok none else
        probeLoop file key h tOff size start (((start + m) % size + 1) % size)
          (size - m - 1)) = _
      rw [hidx, if_neg hne, show size - m - 1 = size - (m + 1) by omega]
      exact hrec

/-! ### Assembling a successful lookup -/

theorem length_encodeHeader (ts : List Table) : (encodeHeader ts).length = 16 * ts.length :=
  flatten_chunk_length _ (fun t => length_writeTuple _ _) ts

theorem length_recFlatten :
    ∀ ps : List (List Nat × List Nat),
      ((ps.map recBytes).flatten).length = (ps.map recSize).sum := by
  intro ps
  induction ps with
  | nil => simp
  | cons p rest ih => simp [length_recBytes, ih]

theorem getD_range (n i : Nat) (h : i < n) : (List.range n).getD i 0 = i := by
  rw [List.getD_eq_getElem?_getD, List.getElem?_range h]
  simp

theorem getValueAt_annotated (ps : List (List Nat × List Nat)) (ts : List Table)
    (bs : List Nat) (o : Nat) (kv : List Nat × List Nat) (key : List Nat)
    (hts : ts.length = 256)
    (hmem : (o, kv) ∈ annotated headerSize ps)
    (hsz : headerSize + (ps.map recSize).sum ≤ 2 ^ 64) :
    getValueAt (encodeHeader ts ++ ((ps.map recBytes).flatten ++ bs)) o key =
      .ok (if kv.1 = key then some kv.2 else none) := by
  obtain ⟨hle, hub⟩ := annotated_bounds ps headerSize o kv hmem
  obtain ⟨r, hr⟩ := annotated_drop ps headerSize o kv hmem
  have hhdr : (encodeHeader ts).length = headerSize := by
    rw [length_encodeHeader, hts]
    rfl
  have hrecl : ((ps.map recBytes).flatten).length = (ps.map recSize).sum :=
    length_recFlatten ps
  have hrsdef : recSize kv = 16 + kv.1.length + kv.2.length := rfl
  have hdropO : (encodeHeader ts ++ ((ps.map recBytes).flatten ++ bs)).drop o =
      recBytes kv ++ (r ++ bs) := by
    rw [drop_append_right _ _ _ (by omega), hhdr,
      drop_append_left _ _ _ (by omega), hr, List.append_assoc]
  exact getValueAt_of_drop _ _ _ _ _ hdropO (by omega) (by omega)

theorem get_core (H : Option (List Nat) → Nat) (ps : List (List Nat × List Nat))
    (ts : List Table) (bs : List Nat) (k v : List Nat) (o : Nat)
    (sorted : List Entry) (presum d : Nat)
    (hb : H (some k) < 2 ^ 64)
    (hh : H (some k) ≠ 0)
    (hsz : headerSize + (ps.map recSize).sum ≤ 2 ^ 64)
    (hts256 : ts.length = 256)
    (hts : ts.getD (H (some k) % 256) ⟨0, 0⟩ =
      ⟨headerSize + (ps.map recSize).sum + 16 * presum, sorted.length⟩)
    (hszpos : 0 < sorted.length)
    (hbs : bs.drop (16 * presum) =
      (sorted.map fun e => writeTuple e.hash e.offset).flatten ++
        bs.drop (16 * (presum + sorted.length)))
    (ho : (o, (k, v)) ∈ annotated headerSize ps)
    (hd : d < sorted.length)
    (hhit : sorted.getD (((H (some k) >>> 8) % sorted.length + d) % sorted.length)
      emptySlot = ⟨H (some k), o % 2 ^ 64⟩)
    (hpath : ∀ m, m < d → ∃ o2 kv2, (o2, kv2) ∈ annotated headerSize ps ∧
      sorted.getD (((H (some k) >>> 8) % sorted.length + m) % sorted.length) emptySlot =
        ⟨H (some kv2.1), o2 % 2 ^ 64⟩ ∧
      H (some kv2.1) ≠ 0 ∧ H (some kv2.1) < 2 ^ 64 ∧ (kv2.1 = k → kv2.2 = v)) :
    CDB.Get ⟨ts, encodeHeader ts ++ ((ps.map recBytes).flatten ++ bs), H⟩ (some k) =
      .ok (some v) := by
  have hhdrlen : (encodeHeader ts).length = headerSize := by
    rw [length_encodeHeader, hts256]
    rfl
  have hreclen : ((ps.map recBytes).flatten).length = (ps.map recSize).sum :=
    length_recFlatten ps
  have hfile : (encodeHeader ts ++ ((ps.map recBytes).flatten ++ bs)).drop
      (headerSize + (ps.map recSize).sum + 16 * presum) =
      (sorted.map fun e => writeTuple e.hash e.offset).flatten ++
        bs.drop (16 * (presum + sorted.length)) := by
    rw [drop_append_right _ _ _ (by rw [hhdrlen]; omega), hhdrlen,
      show headerSize + (ps.map recSize).sum + 16 * presum - headerSize =
        (ps.map recSize).sum + 16 * presum by omega,
      drop_append_right _ _ _ (by rw [hreclen]; omega), hreclen,
      show (ps.map recSize).sum + 16 * presum - (ps.map recSize).sum = 16 * presum
        by omega,
      hbs]
  have hoBound : o < 2 ^ 64 := by
    obtain ⟨hle, hub⟩ := annotated_bounds ps headerSize o (k, v) ho
    have : 16 ≤ recSize (k, v) := by
      show 16 ≤ 16 + k.length + v.length
      omega
    omega
  have hread : ∀ m, m ≤ d →
      readTuple (encodeHeader ts ++ ((ps.map recBytes).flatten ++ bs))
        (headerSize + (ps.map recSize).sum + 16 * presum +
          16 * (((H (some k) >>> 8) % sorted.length + m) % sorted.length)) =
      some ((sorted.getD (((H (some k) >>> 8) % sorted.length + m) % sorted.length)
          emptySlot).hash % 2 ^ 64,
        (sorted.getD (((H (some k) >>> 8) % sorted.length + m) % sorted.length)
          emptySlot).offset % 2 ^ 64) := by
    intro m _
    exact readTuple_slot _ sorted _ _ _ hfile (Nat.mod_lt _ hszpos)
  have hstart : (H (some k) >>> 8) % sorted.length < sorted.length := Nat.mod_lt _ hszpos
  have hpath2 : ∀ m, m < d →
      (sorted.getD (((H (some k) >>> 8) % sorted.length + m) % sorted.length)
        emptySlot).hash % 2 ^ 64 ≠ 0 ∧
      ((sorted.getD (((H (some k) >>> 8) % sorted.length + m) % sorted.length)
        emptySlot).hash % 2 ^ 64 = H (some k) →
        getValueAt (encodeHeader ts ++ ((ps.map recBytes).flatten ++ bs))
          ((sorted.getD (((H (some k) >>> 8) % sorted.length + m) % sorted.length)
            emptySlot).offset % 2 ^ 64) k = .ok none ∨
        getValueAt (encodeHeader ts ++ ((ps.map recBytes).flatten ++ bs))
          ((sorted.getD (((H (some k) >>> 8) % sorted.length + m) % sorted.length)
            emptySlot).offset % 2 ^ 64) k = .ok (some v)) := by
    intro m hm
    obtain ⟨o2, kv2, hm2, hslot, hnz2, hb2, hkv⟩ := hpath m hm
    have ho2Bound : o2 < 2 ^ 64 := by
      obtain ⟨hle2, hub2⟩ := annotated_bounds ps headerSize o2 kv2 hm2
      have : 16 ≤ recSize kv2 := by
        show 16 ≤ 16 + kv2.1.length + kv2.2.length
        omega
      omega
    have hgv := getValueAt_annotated ps ts bs o2 kv2 k hts256 hm2 hsz
    rw [hslot]
    simp only [Nat.mod_eq_of_lt hb2, Nat.mod_eq_of_lt ho2Bound]
    constructor
    · exact hnz2
    · intro _
      by_cases hkey : kv2.1 = k
      · right
        rw [hgv, if_pos hkey, hkv hkey]
      · left
        rw [hgv, if_neg hkey]
  have hhith : (sorted.getD (((H (some k) >>> 8) % sorted.length + d) % sorted.length)
      emptySlot).hash % 2 ^ 64 = H (some k) := by
    rw [hhit]
    show H (some k) % 2 ^ 64 = H (some k)
    exact Nat.mod_eq_of_lt hb
  have hhitv : getValueAt (encodeHeader ts ++ ((ps.map recBytes).flatten ++ bs))
      ((sorted.getD (((H (some k) >>> 8) % sorted.length + d) % sorted.length)
        emptySlot).offset % 2 ^ 64) k = .ok (some v) := by
    rw [hhit]
    show getValueAt _ (o % 2 ^ 64 % 2 ^ 64) k = _
    rw [Nat.mod_eq_of_lt hoBound, Nat.mod_eq_of_lt hoBound]
    have hgv := getValueAt_annotated ps ts bs o (k, v) k hts256 ho hsz
    rw [hgv, if_pos rfl]
  have hprobe := probeLoop_finds (encodeHeader ts ++ ((ps.map recBytes).flatten ++ bs)) k v
    (H (some k)) (headerSize + (ps.map recSize).sum + 16 * presum) sorted.length
    ((H (some k) >>> 8) % sorted.length) d
    (fun m => (sorted.getD (((H (some k) >>> 8) % sorted.length + m) % sorted.length)
      emptySlot).hash % 2 ^ 64)
    (fun m => (sorted.getD (((H (some k) >>> 8) % sorted.length + m) % sorted.length)
      emptySlot).offset % 2 ^ 64)
    hh hstart hd hread hpath2 hhith hhitv 0 (Nat.zero_le d)
  rw [Nat.add_zero, Nat.mod_eq_of_lt hstart, Nat.sub_zero] at hprobe
  dsimp only [CDB.Get, goBytes]
  rw [hts]
  rw [if_neg (show ¬sorted.length = 0 by omega)]
  exact hprobe

/-! ### Round trip: put a batch, freeze, and look every key up -/

theorem roundTrip_core (H : Option (List Nat) → Nat) (ps : List (List Nat × List Nat))
    (hdist : ps.Pairwise fun a b => a.1 ≠ b.1)
    (hb : ∀ p ∈ ps, H (some p.1) < 2 ^ 64)
    (hnz : ∀ p ∈ ps, H (some p.1) ≠ 0)
    (hsz : headerSize + (ps.map recSize).sum + 32 * ps.length ≤ 2 ^ 64) :
    ∃ c, (Writer.putList (NewWriter H) ps).freeze = some c ∧
      ∀ p ∈ ps, c.Get (some p.1) = .ok (some p.2) := by
  have hw_hasher : (Writer.putList (NewWriter H) ps).hasher = H := putList_hasher ps _
  have hw_entries : ∀ i, (Writer.putList (NewWriter H) ps).entries i =
      entriesModel H headerSize ps i := by
    intro i
    have := putList_entries ps (NewWriter H) i
    simpa [NewWriter] using this
  have hfun : (Writer.putList (NewWriter H) ps).entries =
      fun i => entriesModel H headerSize ps i := funext hw_entries
  have hw_data : (Writer.putList (NewWriter H) ps).data = (ps.map recBytes).flatten := by
    have := putList_data ps (NewWriter H)
    simpa [NewWriter] using this
  have hw_off : (Writer.putList (NewWriter H) ps).bufferedOffset =
      headerSize + (ps.map recSize).sum := by
    have := putList_bufferedOffset ps (NewWriter H)
    simpa [NewWriter] using this
  obtain ⟨ts, bs, hfin, hlents, hlenbs, hfacts⟩ :=
    finalizeTables_spec (fun i => entriesModel H headerSize ps i) (List.range 256)
      (headerSize + (ps.map recSize).sum)
  have hts256 : ts.length = 256 := by rw [hlents, List.length_range]
  have hfreeze : (Writer.putList (NewWriter H) ps).freeze =
      some ⟨ts, encodeHeader ts ++ ((ps.map recBytes).flatten ++ bs), H⟩ := by
    unfold Writer.freeze Writer.finalize
    rw [hfun, hw_off, hfin, hw_data, hw_hasher]
    rfl
  refine ⟨_, hfreeze, ?_⟩
  intro p hp
  have hi256 : H (some p.1) % 256 < 256 := Nat.mod_lt _ (by norm_num)
  obtain ⟨o, ho⟩ := annotated_of_mem ps headerSize p hp
  have hemem : (⟨H (some p.1), o % 2 ^ 64⟩ : Entry) ∈
      entriesModel H headerSize ps (H (some p.1) % 256) :=
    entriesModel_of_annotated H ps headerSize o p ho
  have hfi := hfacts (H (some p.1) % 256) (by rw [List.length_range]; exact hi256)
  simp only [getD_range 256 (H (some p.1) % 256) hi256, List.take_range,
    Nat.min_eq_left (le_of_lt hi256)] at hfi
  obtain ⟨sorted, hplace, hlensorted, hts, hbs⟩ := hfi
  -- placement facts for this subtable
  have hnzentries : ∀ e ∈ entriesModel H headerSize ps (H (some p.1) % 256),
      e.hash ≠ 0 := by
    intro e he
    obtain ⟨o2, kv2, hm2, he2, _⟩ := entriesModel_mem H ps headerSize e _ he
    rw [he2]
    exact hnz kv2 (annotated_mem_pair ps headerSize o2 kv2 hm2)
  obtain ⟨sorted2, hplace2, hlen2, hmono2, hchar2, hpos2⟩ :=
    placeEntries_spec (entriesModel H headerSize ps (H (some p.1) % 256))
      (List.replicate
        ((entriesModel H headerSize ps (H (some p.1) % 256)).length * 2) emptySlot)
      hnzentries
      (by rw [countP_replicate_empty, List.length_replicate]; omega)
  obtain rfl : sorted = sorted2 := Option.some.inj (hplace.symm.trans hplace2)
  simp only [List.length_replicate] at hlen2 hchar2 hpos2
  have hNpos : 0 < (entriesModel H headerSize ps (H (some p.1) % 256)).length :=
    List.length_pos_of_mem hemem
  -- this subtable's stored offset is below 2^64, so the uint64 wrap is the identity
  have hple : sizesSum (fun i => entriesModel H headerSize ps i)
      (List.range (H (some p.1) % 256)) +
      (entriesModel H headerSize ps (H (some p.1) % 256)).length * 2 ≤
        2 * ps.length := by
    have h1 := sizesSum_entries_le H ps headerSize
      (List.range (H (some p.1) % 256 + 1)) (List.nodup_range _)
    rw [sizesSum_range_succ] at h1
    exact h1
  rw [Nat.mod_eq_of_lt (show headerSize + (ps.map recSize).sum +
      16 * sizesSum (fun i => entriesModel H headerSize ps i)
        (List.range (H (some p.1) % 256)) < 2 ^ 64 by omega)] at hts
  have hsz0 : headerSize + (ps.map recSize).sum ≤ 2 ^ 64 := by omega
  -- the position of this key's entry
  obtain ⟨d, hd, hhit0, hpath0⟩ := hpos2 ⟨H (some p.1), o % 2 ^ 64⟩ hemem
  have hhash : (⟨H (some p.1), o % 2 ^ 64⟩ : Entry).hash = H (some p.1) := rfl
  rw [hhash] at hhit0 hpath0
  rw [← hlensorted] at hts hbs hd hhit0 hpath0 hchar2
  apply get_core H ps ts bs p.1 p.2 o sorted
    (sizesSum (fun i => entriesModel H headerSize ps i)
      (List.range (H (some p.1) % 256))) d
    (hb p hp) (hnz p hp) hsz0 hts256 hts (by omega) hbs ho hd hhit0
  -- remaining: the path-slot description
  intro m hm
  have hq : ((H (some p.1) >>> 8) % sorted.length + m) % sorted.length < sorted.length :=
    Nat.mod_lt _ (by omega)
  have hnz0 := hpath0 m hm
  rcases hchar2 (((H (some p.1) >>> 8) % sorted.length + m) % sorted.length) hq with
    hempty | hmem2
  · rw [getD_replicate_empty] at hempty
    rw [hempty] at hnz0
    exact absurd rfl hnz0
  · obtain ⟨o2, kv2, hm2, he2, _⟩ :=
      entriesModel_mem H ps headerSize _ _ hmem2
    have hkv2ps : kv2 ∈ ps := annotated_mem_pair ps headerSize o2 kv2 hm2
    refine ⟨o2, kv2, hm2, he2, hnz kv2 hkv2ps, hb kv2 hkv2ps, ?_⟩
    intro hkey
    have : kv2 = p := pairwise_key_eq ps hdist kv2 hkv2ps p hp hkey
    rw [this]

/-! ### Generic helpers for the remaining claims -/

theorem getD_replicate_lt {α : Type} (n i : Nat) (a d : α) (h : i < n) :
    (List.replicate n a).getD i d = a := by
  rw [List.getD_eq_getElem?_getD, List.getElem?_replicate, if_pos h]
  simp

/-- With hash value `0`, the probe can never return a value: the zero-hash
check fires before the hash-match check. -/
theorem probeLoop_zero (file key : List Nat) (tOff tLen startingSlot : Nat)
    (v : List Nat) :
    ∀ (fuel slot : Nat),
      probeLoop file key 0 tOff tLen startingSlot slot fuel ≠ .ok (some v) := by
  intro fuel
  induction fuel with
  | zero =>
    intro slot
    simp [probeLoop]
  | succ fuel ih =>
    intro slot
    cases hrt : readTuple file (tOff + 16 * slot) with
    | none => simp [probeLoop, hrt]
    | some pr =>
      obtain ⟨sh, so⟩ := pr
      simp only [probeLoop, hrt]
      by_cases h0 : sh = 0
      · simp [h0]
      · rw [if_neg h0, if_neg h0]
        by_cases hs : (slot + 1) % tLen = startingSlot
        · simp [hs]
        · rw [if_neg hs]
          exact ih _

theorem putList_state (H : Option (List Nat) → Nat) (ps : List (List Nat × List Nat)) :
    (Writer.putList (NewWriter H) ps).hasher = H ∧
    (Writer.putList (NewWriter H) ps).entries =
      (fun i => entriesModel H headerSize ps i) ∧
    (Writer.putList (NewWriter H) ps).data = (ps.map recBytes).flatten ∧
    (Writer.putList (NewWriter H) ps).bufferedOffset =
      headerSize + (ps.map recSize).sum := by
  refine ⟨putList_hasher ps _, funext fun i => ?_, ?_, ?_⟩
  · simpa [NewWriter] using putList_entries ps (NewWriter H) i
  · simpa [NewWriter] using putList_data ps (NewWriter H)
  · simpa [NewWriter] using putList_bufferedOffset ps (NewWriter H)

theorem finalize_putList_eq (H : Option (List Nat) → Nat)
    (ps : List (List Nat × List Nat)) (ts : List Table) (bs : List Nat)
    (hfin : finalizeTables (fun i => entriesModel H headerSize ps i)
      (headerSize + (ps.map recSize).sum) (List.range 256) = some (ts, bs)) :
    (Writer.putList (NewWriter H) ps).finalize =
      some (ts, encodeHeader ts ++ ((ps.map recBytes).flatten ++ bs)) ∧
    (Writer.putList (NewWriter H) ps).freeze =
      some ⟨ts, encodeHeader ts ++ ((ps.map recBytes).flatten ++ bs), H⟩ := by
  obtain ⟨hhash, hent, hdata, hoff⟩ := putList_state H ps
  constructor
  · unfold Writer.finalize
    rw [hent, hoff, hfin, hdata]
  · unfold Writer.freeze Writer.finalize
    rw [hent, hoff, hfin, hdata, hhash]
    rfl

/-! ### Duplicate keys: the first-inserted entry takes the home slot -/

theorem entriesModel_dup (H : Option (List Nat) → Nat) (k v1 v2 : List Nat) :
    entriesModel H headerSize [(k, v1), (k, v2)] (H (some k) % 256) =
      [⟨H (some k), headerSize % 2 ^ 64⟩,
       ⟨H (some k), (headerSize + recSize (k, v1)) % 2 ^ 64⟩] := by
  simp [entriesModel]

theorem entriesModel_dup_ne (H : Option (List Nat) → Nat) (k v1 v2 : List Nat)
    (off j : Nat) (hj : j ≠ H (some k) % 256) :
    entriesModel H off [(k, v1), (k, v2)] j = [] := by
  simp [entriesModel, hj]

theorem findSlot_empty_start (sorted : List Entry) (start : Nat)
    (hstart : start < sorted.length)
    (hempty : (sorted.getD start emptySlot).hash = 0) :
    findSlot sorted start sorted.length = some start := by
  have hex : ∃ m, m < sorted.length ∧
      (sorted.getD ((start + m) % sorted.length) emptySlot).hash = 0 :=
    ⟨0, by omega, by rwa [Nat.add_zero, Nat.mod_eq_of_lt hstart]⟩
  obtain ⟨d, hd, hfind, hemp, hpath⟩ :=
    findSlot_spec sorted.length sorted start hstart hex
  rcases Nat.eq_zero_or_pos d with rfl | hdpos
  · rwa [Nat.add_zero, Nat.mod_eq_of_lt hstart] at hfind
  · exfalso
    exact hpath 0 hdpos (by rwa [Nat.add_zero, Nat.mod_eq_of_lt hstart])

theorem findSlot_occupied_start (sorted : List Entry) (start : Nat)
    (hstart : start < sorted.length)
    (hocc : (sorted.getD start emptySlot).hash ≠ 0)
    (hempty1 : (sorted.getD ((start + 1) % sorted.length) emptySlot).hash = 0) :
    findSlot sorted start sorted.length = some ((start + 1) % sorted.length) := by
  have hpos : 0 < sorted.length := by omega
  have hex : ∃ m, m < sorted.length ∧
      (sorted.getD ((start + m) % sorted.length) emptySlot).hash = 0 := by
    rcases Nat.lt_or_ge 1 sorted.length with h1 | h1
    · exact ⟨1, h1, hempty1⟩
    · have hlen1 : sorted.length = 1 := by omega
      refine ⟨0, by omega, ?_⟩
      have : (start + 1) % sorted.length = start := by
        rw [hlen1]
        omega
      rw [this] at hempty1
      rw [Nat.add_zero, Nat.mod_eq_of_lt hstart]
      exact hempty1
  obtain ⟨d, hd, hfind, hemp, hpath⟩ :=
    findSlot_spec sorted.length sorted start hstart hex
  have hd0 : d ≠ 0 := by
    intro hz
    subst hz
    rw [Nat.add_zero, Nat.mod_eq_of_lt hstart] at hemp
    exact hocc hemp
  have hd1 : d = 1 := by
    by_contra hne1
    have h2le : 2 ≤ d := by omega
    exact hpath 1 (by omega) hempty1
  rw [hd1] at hfind
  exact hfind

theorem placeEntries_dup (h o1 o2 : Nat) (hh : h ≠ 0) :
    placeEntries (List.replicate 4 emptySlot) [⟨h, o1⟩, ⟨h, o2⟩] =
      some (((List.replicate 4 emptySlot).set ((h >>> 8) % 4) ⟨h, o1⟩).set
        (((h >>> 8) % 4 + 1) % 4) ⟨h, o2⟩) := by
  have hs0lt : (h >>> 8) % 4 < 4 := Nat.mod_lt _ (by norm_num)
  have hs1lt : ((h >>> 8) % 4 + 1) % 4 < 4 := Nat.mod_lt _ (by norm_num)
  have hne : ((h >>> 8) % 4 + 1) % 4 ≠ (h >>> 8) % 4 := by
    omega
  have hfind1 : findSlot (List.replicate 4 emptySlot) ((h >>> 8) % 4) 4 =
      some ((h >>> 8) % 4) := by
    have := findSlot_empty_start (List.replicate 4 emptySlot) ((h >>> 8) % 4)
      (by simp [hs0lt]) (by rw [getD_replicate_empty]; rfl)
    simpa using this
  have hfind2 : findSlot ((List.replicate 4 emptySlot).set ((h >>> 8) % 4) ⟨h, o1⟩)
      ((h >>> 8) % 4) 4 = some (((h >>> 8) % 4 + 1) % 4) := by
    have hlen : ((List.replicate 4 emptySlot).set ((h >>> 8) % 4) ⟨h, o1⟩).length = 4 := by
      simp
    have := findSlot_occupied_start
      ((List.replicate 4 emptySlot).set ((h >>> 8) % 4) ⟨h, o1⟩) ((h >>> 8) % 4)
      (by rw [hlen]; exact hs0lt)
      (by rw [getD_set_self _ _ _ (by simp [hs0lt])]; exact hh)
      (by
        rw [hlen, getD_set_other _ _ _ _ hne, getD_replicate_empty]
        rfl)
    rwa [hlen] at this
  simp only [placeEntries, List.length_replicate, List.length_set, hfind1, hfind2]

theorem dup_first_core (H : Option (List Nat) → Nat) (k v1 v2 : List Nat)
    (hb : H (some k) < 2 ^ 64) (hh : H (some k) ≠ 0)
    (hsz : headerSize + (([(k, v1), (k, v2)].map recSize).sum) + 64 ≤ 2 ^ 64) :
    ∃ c, (Writer.putList (NewWriter H) [(k, v1), (k, v2)]).freeze = some c ∧
      c.Get (some k) = .ok (some v1) := by
  obtain ⟨ts, bs, hfin, hlents, hlenbs, hfacts⟩ :=
    finalizeTables_spec (fun i => entriesModel H headerSize [(k, v1), (k, v2)] i)
      (List.range 256) (headerSize + (([(k, v1), (k, v2)].map recSize).sum))
  obtain ⟨hfineq, hfreeze⟩ := finalize_putList_eq H [(k, v1), (k, v2)] ts bs hfin
  have hts256 : ts.length = 256 := by rw [hlents, List.length_range]
  refine ⟨_, hfreeze, ?_⟩
  have hi256 : H (some k) % 256 < 256 := Nat.mod_lt _ (by norm_num)
  have hfi := hfacts (H (some k) % 256) (by rw [List.length_range]; exact hi256)
  simp only [getD_range 256 (H (some k) % 256) hi256, List.take_range,
    Nat.min_eq_left (le_of_lt hi256)] at hfi
  obtain ⟨sorted, hplace, hlensorted, htsg, hbs⟩ := hfi
  have hentries := entriesModel_dup H k v1 v2
  have hlen2 : (entriesModel H headerSize [(k, v1), (k, v2)] (H (some k) % 256)).length = 2 := by
    rw [hentries]
    rfl
  have hcall : placeEntries
      (List.replicate
        ((entriesModel H headerSize [(k, v1), (k, v2)] (H (some k) % 256)).length * 2)
        emptySlot)
      (entriesModel H headerSize [(k, v1), (k, v2)] (H (some k) % 256)) =
      placeEntries (List.replicate 4 emptySlot)
        [⟨H (some k), headerSize % 2 ^ 64⟩,
         ⟨H (some k), (headerSize + recSize (k, v1)) % 2 ^ 64⟩] := by
    rw [hlen2, hentries]
  rw [hcall] at hplace
  have hsX : sorted = ((List.replicate 4 emptySlot).set ((H (some k) >>> 8) % 4)
      ⟨H (some k), headerSize % 2 ^ 64⟩).set (((H (some k) >>> 8) % 4 + 1) % 4)
      ⟨H (some k), (headerSize + recSize (k, v1)) % 2 ^ 64⟩ :=
    Option.some.inj (hplace.symm.trans (placeEntries_dup (H (some k))
      (headerSize % 2 ^ 64) ((headerSize + recSize (k, v1)) % 2 ^ 64) hh))
  subst hsX
  have hslen : (((List.replicate 4 emptySlot).set ((H (some k) >>> 8) % 4)
      ⟨H (some k), headerSize % 2 ^ 64⟩).set (((H (some k) >>> 8) % 4 + 1) % 4)
      ⟨H (some k), (headerSize + recSize (k, v1)) % 2 ^ 64⟩).length = 4 := by
    simp
  have hml4 : (entriesModel H headerSize [(k, v1), (k, v2)]
      (H (some k) % 256)).length * 2 = 4 := by
    rw [hlen2]
  rw [hml4] at htsg hbs
  -- every bucket before the key's is empty, so the stored offset is below 2^64
  -- and the uint64 wrap is the identity
  have hpres : sizesSum (fun i => entriesModel H headerSize [(k, v1), (k, v2)] i)
      (List.range (H (some k) % 256)) = 0 := by
    refine sizesSum_eq_zero _ _ ?_
    intro j hj
    have hjlt : j < H (some k) % 256 := List.mem_range.mp hj
    exact entriesModel_dup_ne H k v1 v2 headerSize j (by omega)
  rw [Nat.mod_eq_of_lt (show headerSize + (([(k, v1), (k, v2)].map recSize).sum) +
      16 * sizesSum (fun i => entriesModel H headerSize [(k, v1), (k, v2)] i)
        (List.range (H (some k) % 256)) < 2 ^ 64 by omega)] at htsg
  have hsz0 : headerSize + (([(k, v1), (k, v2)].map recSize).sum) ≤ 2 ^ 64 := by omega
  have hs0lt : (H (some k) >>> 8) % 4 < 4 := Nat.mod_lt _ (by norm_num)
  have hidx : ((H (some k) >>> 8) % 4 + 0) % 4 = (H (some k) >>> 8) % 4 := by omega
  refine get_core H [(k, v1), (k, v2)] ts bs k v1 headerSize _ _ 0
    hb hh hsz0 hts256 (by rw [hslen]; exact htsg) (by rw [hslen]; norm_num)
    (by rw [hslen]; exact hbs) ?_ ?_ ?_ ?_
  · simp [annotated]
  · rw [hslen]
    norm_num
  · rw [hslen, hidx,
      getD_set_other _ _ _ _ (by omega), getD_set_self _ _ _ (by simp [hs0lt])]
  · intro m hm
    exact absurd hm (Nat.not_lt_zero m)

/-! ### Keys hashing to zero are unreachable by `Get` -/

theorem get_zero_hash (c : CDB) (key : Option (List Nat)) (v : List Nat)
    (h0 : c.hasher key = 0) : c.Get key ≠ .ok (some v) := by
  dsimp only [CDB.Get]
  rw [h0]
  by_cases ht : (c.header.getD (0 % 256) ⟨0, 0⟩).length = 0
  · rw [if_pos ht]
    simp
  · rw [if_neg ht]
    exact probeLoop_zero _ _ _ _ _ _ _ _

/-! ### The empty database -/

theorem finalizeTables_empty :
    ∀ (idxs : List Nat) (off : Nat),
      finalizeTables (fun _ => []) off idxs =
        some (List.replicate idxs.length ⟨off % 2 ^ 64, 0⟩, []) := by
  intro idxs
  induction idxs with
  | nil => intro off; rfl
  | cons i rest ih =>
    intro off
    simp only [finalizeTables, placeEntries, List.length_nil, Nat.zero_mul, Nat.mul_zero,
      Nat.add_zero, List.replicate_zero, ih, List.length_cons, List.replicate_succ,
      List.map_nil, List.flatten_nil, List.nil_append]

theorem finalize_empty (H : Option (List Nat) → Nat) :
    (NewWriter H).finalize =
      some (List.replicate 256 ⟨headerSize, 0⟩,
        encodeHeader (List.replicate 256 ⟨headerSize, 0⟩)) := by
  unfold Writer.finalize
  rw [show (NewWriter H).entries = (fun _ => []) from rfl,
    show (NewWriter H).bufferedOffset = headerSize from rfl,
    finalizeTables_empty (List.range 256) headerSize, List.length_range,
    Nat.mod_eq_of_lt (show headerSize < 2 ^ 64 by norm_num [headerSize])]
  show some ((List.replicate 256 (⟨headerSize, 0⟩ : Table)),
    encodeHeader (List.replicate 256 ⟨headerSize, 0⟩) ++ ((NewWriter H).data ++ [])) = _
  rw [show (NewWriter H).data = [] from rfl]
  simp only [List.append_nil, List.nil_append]

theorem getD_map_range {α : Type} (n i : Nat) (f : Nat → α) (d : α) (h : i < n) :
    ((List.range n).map f).getD i d = f i := by
  rw [List.getD_eq_getElem?_getD, List.getElem?_map, List.getElem?_range h]
  simp

theorem readHeader_encodeHeader (ts : List Table) (hlen : ts.length = 256) :
    readHeader (encodeHeader ts) = some ((List.range 256).map fun i =>
      (⟨(ts.getD i ⟨0, 0⟩).offset % 2 ^ 64,
        (ts.getD i ⟨0, 0⟩).length % 2 ^ 64⟩ : Table)) := by
  have hhdr : (encodeHeader ts).length = headerSize := by
    rw [length_encodeHeader, hlen]
    rfl
  have hread : readAt (encodeHeader ts) 0 headerSize = some (encodeHeader ts) := by
    refine readAt_of_drop (encodeHeader ts) (encodeHeader ts) [] 0 headerSize ?_ hhdr
    simp
  unfold readHeader
  rw [hread]
  refine congrArg some (List.map_congr_left ?_)
  intro i hi
  have hi256 : i < 256 := by simpa using hi
  have hchunk := flatten_chunk_drop (fun t => writeTuple t.offset t.length) ⟨0, 0⟩
    (fun t => length_writeTuple _ _) ts i (by omega)
  have hdropi : (encodeHeader ts).drop (16 * i) =
      writeTuple (ts.getD i ⟨0, 0⟩).offset (ts.getD i ⟨0, 0⟩).length ++
        ((ts.drop (i + 1)).map fun t => writeTuple t.offset t.length).flatten := by
    exact hchunk
  have htake : ((encodeHeader ts).drop (16 * i)).take 8 =
      putUint64 (ts.getD i ⟨0, 0⟩).offset := by
    rw [hdropi]
    show ((putUint64 _ ++ putUint64 _) ++ _).take 8 = _
    rw [List.append_assoc]
    exact take_append_exact _ _ _ (length_putUint64 _)
  have hdrop8 : (encodeHeader ts).drop (16 * i + 8) =
      putUint64 (ts.getD i ⟨0, 0⟩).length ++
        ((ts.drop (i + 1)).map fun t => writeTuple t.offset t.length).flatten := by
    rw [← drop_drop_add, hdropi]
    show ((putUint64 _ ++ putUint64 _) ++ _).drop 8 = _
    rw [List.append_assoc]
    exact drop_append_exact _ _ _ (length_putUint64 _)
  have htake8 : ((encodeHeader ts).drop (16 * i + 8)).take 8 =
      putUint64 (ts.getD i ⟨0, 0⟩).length := by
    rw [hdrop8]
    exact take_append_exact _ _ _ (length_putUint64 _)
  rw [htake, htake8, leUint64_putUint64, leUint64_putUint64]

theorem get_empty_header (hdr : List Table) (file : List Nat)
    (H2 : Option (List Nat) → Nat) (key : Option (List Nat))
    (hdr0 : ∀ i, i < 256 → (hdr.getD i ⟨0, 0⟩).length = 0) :
    CDB.Get ⟨hdr, file, H2⟩ key = .ok none := by
  dsimp only [CDB.Get]
  rw [if_pos (hdr0 _ (Nat.mod_lt _ (by norm_num)))]

/-! ## The claims -/

/-- Claim C1, counterexample: with a configured hash function that the code
accepts (here the constant-zero `HashFunc`), a single put of the key `[3]`
with value `[7]` followed by finalize yields a reader on which `Get [3]` does
not return `[7]`: the claim "Get returns exactly the inserted value for every
inserted key" fails as stated, because a key whose hash is zero is treated as
an empty slot by the probe. -/
theorem c1_counterexample :
    ∃ c, (Writer.putList (NewWriter (fun _ => 0))
        ([([3], [7])] : List (List Nat × List Nat))).freeze = some c ∧
      c.Get (some [3]) ≠ .ok (some [7]) := by
  obtain ⟨ts, bs, hfin, _, _, _⟩ :=
    finalizeTables_spec
      (fun i => entriesModel (fun _ => 0) headerSize [([3], [7])] i)
      (List.range 256)
      (headerSize + (([([3], [7])] : List (List Nat × List Nat)).map recSize).sum)
  obtain ⟨_, hfreeze⟩ := finalize_putList_eq (fun _ => 0) [([3], [7])] ts bs hfin
  exact ⟨_, hfreeze, get_zero_hash _ _ _ rfl⟩

/-- Claim C1 (amended): for every finite sequence of puts with
pairwise-distinct keys, none of which hashes to zero under the configured
64-bit hash, and whose total finalized file size — the 4096 header bytes,
the records, and the 16 bytes per slot (two slots per record, hence
`32 * ps.length`) — is at most `2^64` bytes, a `Get` on the frozen database
with any inserted key returns exactly the value inserted with it. -/
theorem c1_round_trip (H : Option (List Nat) → Nat) (ps : List (List Nat × List Nat))
    (hdist : ps.Pairwise fun a b => a.1 ≠ b.1)
    (hb : ∀ p ∈ ps, H (some p.1) < 2 ^ 64)
    (hnz : ∀ p ∈ ps, H (some p.1) ≠ 0)
    (hsz : headerSize + (ps.map recSize).sum + 32 * ps.length ≤ 2 ^ 64) :
    ∃ c, (Writer.putList (NewWriter H) ps).freeze = some c ∧
      ∀ p ∈ ps, c.Get (some p.1) = .ok (some p.2) :=
  roundTrip_core H ps hdist hb hnz hsz

/-- Claim C1, witness: the amended round trip at a concrete two-record
database under the default hash. -/
theorem c1_round_trip_witness :
    (([([1], [10]), ([2], [20])] : List (List Nat × List Nat)).Pairwise
      fun a b => a.1 ≠ b.1) ∧
    (∀ p ∈ ([([1], [10]), ([2], [20])] : List (List Nat × List Nat)),
      cdbHashSlice (some p.1) < 2 ^ 64) ∧
    (∀ p ∈ ([([1], [10]), ([2], [20])] : List (List Nat × List Nat)),
      cdbHashSlice (some p.1) ≠ 0) ∧
    headerSize + (([([1], [10]), ([2], [20])] : List (List Nat × List Nat)).map
      recSize).sum + 32 * ([([1], [10]), ([2], [20])] :
        List (List Nat × List Nat)).length ≤ 2 ^ 64 ∧
    ∃ c, (Writer.putList (NewWriter cdbHashSlice)
        ([([1], [10]), ([2], [20])] : List (List Nat × List Nat))).freeze = some c ∧
      ∀ p ∈ ([([1], [10]), ([2], [20])] : List (List Nat × List Nat)),
        c.Get (some p.1) = .ok (some p.2) :=
  ⟨by decide, by decide, by decide, by decide,
    c1_round_trip cdbHashSlice _ (by decide) (by decide) (by decide) (by decide)⟩

/-- Claim C2, counterexample: under a configured hash that sends the key `[1]`
to zero, the key is inserted and finalized, yet `Get [1]` does not return its
value `[2]`: both the writer's placement and the reader's probe treat
`slot_hash == 0` alone as "empty" (the record offset is never examined), so
the claim's stated reason and conclusion fail on this code. -/
theorem c2_counterexample :
    ∃ c, (Writer.putList (NewWriter (fun _ => 0))
        ([([1], [2])] : List (List Nat × List Nat))).freeze = some c ∧
      c.Get (some [1]) ≠ .ok (some [2]) := by
  obtain ⟨ts, bs, hfin, _, _, _⟩ :=
    finalizeTables_spec
      (fun i => entriesModel (fun _ => 0) headerSize [([1], [2])] i)
      (List.range 256)
      (headerSize + (([([1], [2])] : List (List Nat × List Nat)).map recSize).sum)
  obtain ⟨_, hfreeze⟩ := finalize_putList_eq (fun _ => 0) [([1], [2])] ts bs hfin
  exact ⟨_, hfreeze, get_zero_hash _ _ _ rfl⟩

/-- Claim C2 (amended): a key whose configured 64-bit hash is exactly zero is
never returned by `Get`: the probe breaks on `slot_hash == 0` alone, without
consulting the record offset, so `Get` on such a key yields "not found" or an
I/O error but never a value. -/
theorem c2_zero_hash (c : CDB) (key : Option (List Nat)) (v : List Nat)
    (h0 : c.hasher key = 0) : c.Get key ≠ .ok (some v) :=
  get_zero_hash c key v h0

/-- Claim C2, witness: a concrete reader whose hasher maps every key to zero
never answers a lookup with a value. -/
theorem c2_zero_hash_witness :
    (CDB.mk [] [] (fun _ => 0)).hasher (some []) = 0 ∧
    (CDB.mk [] [] (fun _ => 0)).Get (some []) ≠ .ok (some []) :=
  ⟨rfl, c2_zero_hash ⟨[], [], fun _ => 0⟩ (some []) [] rfl⟩

/-- Claim C3, counterexample: with a configured hash sending the key `[5]` to
zero, putting `[5]` twice with different values and finalizing yields a
reader on which `Get [5]` does not return the first-inserted value `[1]`,
because the zero-hash slots read as empty. -/
theorem c3_counterexample :
    ∃ c, (Writer.putList (NewWriter (fun _ => 0))
        ([([5], [1]), ([5], [2])] : List (List Nat × List Nat))).freeze = some c ∧
      c.Get (some [5]) ≠ .ok (some [1]) := by
  obtain ⟨ts, bs, hfin, _, _, _⟩ :=
    finalizeTables_spec
      (fun i => entriesModel (fun _ => 0) headerSize [([5], [1]), ([5], [2])] i)
      (List.range 256)
      (headerSize +
        (([([5], [1]), ([5], [2])] : List (List Nat × List Nat)).map recSize).sum)
  obtain ⟨_, hfreeze⟩ :=
    finalize_putList_eq (fun _ => 0) [([5], [1]), ([5], [2])] ts bs hfin
  exact ⟨_, hfreeze, get_zero_hash _ _ _ rfl⟩

/-- Claim C3 (amended): if the same key is put twice with two values and the
writer is finalized, then provided the key's configured hash is nonzero and
the finalized file — 4096 header bytes, the two records, and the 64 bytes of
slots (four 16-byte slots) — fits in `2^64` bytes, `Get` on that key
deterministically returns the first-inserted value: placement fills the
first empty slot forward from the home slot in insertion order, and lookup
probes in the same order. -/
theorem c3_dup_first (H : Option (List Nat) → Nat) (k v1 v2 : List Nat)
    (hb : H (some k) < 2 ^ 64) (hh : H (some k) ≠ 0)
    (hsz : headerSize + (([(k, v1), (k, v2)].map recSize).sum) + 64 ≤ 2 ^ 64) :
    ∃ c, (Writer.putList (NewWriter H) [(k, v1), (k, v2)]).freeze = some c ∧
      c.Get (some k) = .ok (some v1) :=
  dup_first_core H k v1 v2 hb hh hsz

/-- Claim C3, witness: the duplicate key `[7]` under the default hash yields
its first value `[1]`. -/
theorem c3_dup_first_witness :
    cdbHashSlice (some [7]) < 2 ^ 64 ∧ cdbHashSlice (some [7]) ≠ 0 ∧
    headerSize + (([([7], [1]), ([7], [2])].map recSize).sum) + 64 ≤ 2 ^ 64 ∧
    ∃ c, (Writer.putList (NewWriter cdbHashSlice) [([7], [1]), ([7], [2])]).freeze =
        some c ∧
      c.Get (some [7]) = .ok (some [1]) :=
  ⟨by decide, by decide, by decide,
    c3_dup_first cdbHashSlice [7] [1] [2] (by decide) (by decide) (by decide)⟩

/-- Claim C4: after finalize, the header's length field for subtable `i`
equals exactly twice the number of put entries whose hash has low byte `i`
(and is therefore `0` iff no entry maps to that subtable). -/
theorem c4_header_length (H : Option (List Nat) → Nat) (ps : List (List Nat × List Nat))
    (i : Nat) (hi : i < 256) :
    ∃ ts bs0, (Writer.putList (NewWriter H) ps).finalize = some (ts, bs0) ∧
      (ts.getD i ⟨0, 0⟩).length =
        2 * (ps.filter fun p => H (some p.1) % 256 == i).length ∧
      ((ts.getD i ⟨0, 0⟩).length = 0 ↔
        (ps.filter fun p => H (some p.1) % 256 == i) = []) := by
  obtain ⟨ts, bs, hfin, hlents, hlenbs, hfacts⟩ :=
    finalizeTables_spec (fun i => entriesModel H headerSize ps i) (List.range 256)
      (headerSize + (ps.map recSize).sum)
  obtain ⟨hfineq, _⟩ := finalize_putList_eq H ps ts bs hfin
  have hfi := hfacts i (by rw [List.length_range]; exact hi)
  simp only [getD_range 256 i hi, List.take_range, Nat.min_eq_left (le_of_lt hi)] at hfi
  obtain ⟨sorted, _, _, hts, _⟩ := hfi
  have hlen : (ts.getD i ⟨0, 0⟩).length =
      2 * (ps.filter fun p => H (some p.1) % 256 == i).length := by
    rw [hts]
    show (entriesModel H headerSize ps i).length * 2 = _
    rw [entriesModel_length]
    ring
  refine ⟨ts, _, hfineq, hlen, ?_⟩
  rw [hlen]
  constructor
  · intro hz
    exact List.length_eq_zero.mp (by omega)
  · intro he
    rw [he]
    rfl

/-- Claim C4, witness: the header law at subtable `3` of a one-record
database under the default hash. -/
theorem c4_header_length_witness :
    (3 : Nat) < 256 ∧
    ∃ ts bs0, (Writer.putList (NewWriter cdbHashSlice)
        ([([1], [2])] : List (List Nat × List Nat))).finalize = some (ts, bs0) ∧
      (ts.getD 3 ⟨0, 0⟩).length =
        2 * (([([1], [2])] : List (List Nat × List Nat)).filter
          fun p => cdbHashSlice (some p.1) % 256 == 3).length ∧
      ((ts.getD 3 ⟨0, 0⟩).length = 0 ↔
        (([([1], [2])] : List (List Nat × List Nat)).filter
          fun p => cdbHashSlice (some p.1) % 256 == 3) = []) :=
  ⟨by decide, c4_header_length cdbHashSlice [([1], [2])] 3 (by decide)⟩

/-- Claim C5: a writer finalized with zero puts produces a file of exactly
4096 bytes, and a reader opened on that file answers "not found" for every
key. -/
theorem c5_empty_db :
    ((NewWriter cdbHashSlice).finalize.map fun r => r.2.length) = some 4096 ∧
    ∀ key, ((NewWriter cdbHashSlice).finalize.map fun r =>
      (CDB.New r.2 cdbHashSlice).map fun c => c.Get key) = some (some (.ok none)) := by
  have hfin := finalize_empty cdbHashSlice
  constructor
  · rw [hfin]
    show some ((encodeHeader (List.replicate 256 ⟨headerSize, 0⟩)).length) = some 4096
    rw [length_encodeHeader, List.length_replicate]
  · intro key
    rw [hfin]
    have hnew : CDB.New (encodeHeader (List.replicate 256 (⟨headerSize, 0⟩ : Table)))
        cdbHashSlice = some ⟨(List.range 256).map (fun i =>
          (⟨((List.replicate 256 (⟨headerSize, 0⟩ : Table)).getD i ⟨0, 0⟩).offset % 2 ^ 64,
            ((List.replicate 256 (⟨headerSize, 0⟩ : Table)).getD i ⟨0, 0⟩).length %
              2 ^ 64⟩ : Table)),
          encodeHeader (List.replicate 256 ⟨headerSize, 0⟩), cdbHashSlice⟩ := by
      unfold CDB.New
      rw [readHeader_encodeHeader _ (by rw [List.length_replicate])]
      rfl
    show some ((CDB.New (encodeHeader (List.replicate 256 ⟨headerSize, 0⟩))
      cdbHashSlice).map fun c => c.Get key) = _
    rw [hnew]
    have hget := get_empty_header ((List.range 256).map fun i =>
        (⟨((List.replicate 256 (⟨headerSize, 0⟩ : Table)).getD i ⟨0, 0⟩).offset % 2 ^ 64,
          ((List.replicate 256 (⟨headerSize, 0⟩ : Table)).getD i ⟨0, 0⟩).length %
            2 ^ 64⟩ : Table))
      (encodeHeader (List.replicate 256 ⟨headerSize, 0⟩)) cdbHashSlice key
      (fun i hi => by
        rw [getD_map_range 256 i _ _ hi]
        show ((List.replicate 256 (⟨headerSize, 0⟩ : Table)).getD i ⟨0, 0⟩).length %
          2 ^ 64 = 0
        rw [getD_replicate_lt 256 i _ _ hi]
        rfl)
    show some (some (CDB.Get _ key)) = _
    rw [hget]

/-- Claim C6: for every byte string, the default hash computed by the code
equals the left fold starting at 5381 in which each byte `b` updates the
state to `((state << 5) + state) XOR b`, all arithmetic modulo `2^64`. -/
theorem c6_hash_spec (data : List Nat) : cdbHash data = specHashFold data := by
  unfold cdbHash specHashFold
  have hstep : hashStep = specHashStep := by
    funext v b
    unfold hashStep specHashStep
    rw [Nat.mod_add_mod]
  rw [hstep]

/-- Claim C7, counterexample: the very first record of a database is stored
with record offset exactly `headerSize` (4096), so "every record offset
stored in a slot is strictly greater than `headerSize`" fails: `NewWriter`
initializes `bufferedOffset` to `headerSize` and `Put` records that offset
before writing the record. -/
theorem c7_counterexample :
    ∃ e ∈ (Writer.putList (NewWriter cdbHashSlice)
        ([([1], [2])] : List (List Nat × List Nat))).entries
        (cdbHashSlice (some [1]) % 256),
      ¬ headerSize < e.offset := by decide

/-- Claim C7 (amended): for every sequence of puts whose total data size
stays below `2^64` bytes, every record offset recorded in the writer's
subtable entries (the offsets finalize stores into slots) is at least
`headerSize` (4096). -/
theorem c7_offsets_ge (H : Option (List Nat) → Nat) (ps : List (List Nat × List Nat))
    (hsz : headerSize + (ps.map recSize).sum ≤ 2 ^ 64) :
    ∀ i, ∀ e ∈ (Writer.putList (NewWriter H) ps).entries i, headerSize ≤ e.offset := by
  intro i e he
  rw [(putList_state H ps).2.1] at he
  simp only at he
  obtain ⟨o, kv, hm, he2, _⟩ := entriesModel_mem H ps headerSize e i he
  obtain ⟨hle, hub⟩ := annotated_bounds ps headerSize o kv hm
  have h16 : (16 : Nat) ≤ recSize kv := by
    show 16 ≤ 16 + kv.1.length + kv.2.length
    omega
  rw [he2]
  show headerSize ≤ o % 2 ^ 64
  rw [Nat.mod_eq_of_lt (by omega)]
  exact hle

/-- Claim C7, witness: the lower bound on stored offsets for a concrete
one-record database. -/
theorem c7_offsets_ge_witness :
    headerSize + (([([1], [2])] : List (List Nat × List Nat)).map recSize).sum ≤
      2 ^ 64 ∧
    ∀ i, ∀ e ∈ (Writer.putList (NewWriter cdbHashSlice)
      ([([1], [2])] : List (List Nat × List Nat))).entries i, headerSize ≤ e.offset :=
  ⟨by decide, c7_offsets_ge cdbHashSlice [([1], [2])] (by decide)⟩

/-- Claim C8: finalize runs at most once per writer.  Close after Freeze (or
Freeze after Close) leaves the handle unchanged, and the file content equals
that of the single finalize run. -/
theorem c8_finalize_once (w : Writer) (f0 f : List Nat) (ts : List Table)
    (hfin : w.finalize = some (ts, f)) :
    ((WriterHandle.mk w false f0).freezeHandle.1.close).file = f ∧
    (WriterHandle.mk w false f0).freezeHandle.1.close =
      (WriterHandle.mk w false f0).freezeHandle.1 ∧
    ((WriterHandle.mk w false f0).close.freezeHandle.1).file = f ∧
    (WriterHandle.mk w false f0).close.freezeHandle.1 =
      (WriterHandle.mk w false f0).close := by
  have h1 : (WriterHandle.mk w false f0).freezeHandle =
      (⟨w, true, f⟩, some ⟨ts, f, w.hasher⟩) := by
    unfold WriterHandle.freezeHandle
    rw [if_neg (by simp), hfin]
  have h2 : (⟨w, true, f⟩ : WriterHandle).close = ⟨w, true, f⟩ := by
    unfold WriterHandle.close
    rw [if_pos rfl]
  have h3 : (WriterHandle.mk w false f0).close = ⟨w, true, f⟩ := by
    unfold WriterHandle.close
    rw [if_neg (by simp), hfin]
  have h4 : (⟨w, true, f⟩ : WriterHandle).freezeHandle =
      (⟨w, true, f⟩, some ⟨List.replicate 256 ⟨0, 0⟩, f, w.hasher⟩) := by
    unfold WriterHandle.freezeHandle
    rw [if_pos rfl]
  refine ⟨?_, ?_, ?_, ?_⟩
  · simp only [h1, h2]
  · simp only [h1, h2]
  · simp only [h3, h4]
  · simp only [h3, h4]

/-- Claim C8, witness: an empty writer frozen then closed (and closed then
frozen) keeps the single-finalize file content. -/
theorem c8_finalize_once_witness :
    (NewWriter cdbHashSlice).finalize = some (List.replicate 256 ⟨headerSize, 0⟩,
      encodeHeader (List.replicate 256 ⟨headerSize, 0⟩)) ∧
    (((WriterHandle.mk (NewWriter cdbHashSlice) false []).freezeHandle.1.close).file =
      encodeHeader (List.replicate 256 ⟨headerSize, 0⟩) ∧
    (WriterHandle.mk (NewWriter cdbHashSlice) false []).freezeHandle.1.close =
      (WriterHandle.mk (NewWriter cdbHashSlice) false []).freezeHandle.1 ∧
    ((WriterHandle.mk (NewWriter cdbHashSlice) false []).close.freezeHandle.1).file =
      encodeHeader (List.replicate 256 ⟨headerSize, 0⟩) ∧
    (WriterHandle.mk (NewWriter cdbHashSlice) false []).close.freezeHandle.1 =
      (WriterHandle.mk (NewWriter cdbHashSlice) false []).close) :=
  ⟨finalize_empty cdbHashSlice,
    c8_finalize_once (NewWriter cdbHashSlice) [] _ _ (finalize_empty cdbHashSlice)⟩

/-- Claim C10: a reader configured with the default hash treats a `nil`
(absent) key exactly like the empty byte string: `Get nil` equals
`Get empty`, because `Get` never rejects `nil` and the hash of `nil` equals
the hash of the empty key. -/
theorem c10_nil_key (c : CDB) (hc : c.hasher = cdbHashSlice) :
    c.Get none = c.Get (some []) := by
  obtain ⟨hdr, fl, hs⟩ := c
  change hs = cdbHashSlice at hc
  subst hc
  rfl

/-- Claim C10, witness: the nil/empty agreement on a concrete reader. -/
theorem c10_nil_key_witness :
    (CDB.mk [] [] cdbHashSlice).hasher = cdbHashSlice ∧
    (CDB.mk [] [] cdbHashSlice).Get none = (CDB.mk [] [] cdbHashSlice).Get (some []) :=
  ⟨rfl, c10_nil_key ⟨[], [], cdbHashSlice⟩ rfl⟩

end Cdb64
